import Mathlib

/-!
Verification of the KeyVault Pro vault engine against its specification.

The development shallowly embeds the JavaScript sources:
* `src/unnamed/part_003` — the MCP server host (`KeyVaultMCPServer`);
* the browser-extension core (`EncryptionService`, `StorageManager`,
  background message handlers) embedded in `src/cli/README.md`;
* `src/popup/popup.js` — the popup shell;
* `src/lib/import-export.js` — CSV import/export.

JavaScript strings are modelled as Lean `String` (or `List Char` where
character-level processing matters), numbers as `Nat`/`Int`, `undefined`
and `null` as `Option`, and thrown errors as `Except`.  Cryptographic
primitives (SHA-256, PBKDF2, the AES ciphers) are abstracted as function
parameters; everything around them is transcribed from the source.
-/

namespace KV

/-- Boolean prefix test on character lists (JS `startsWith` semantics). -/
def isPrefixB : List Char → List Char → Bool
  | [], _ => true
  | _ :: _, [] => false
  | a :: as, b :: bs => a == b && isPrefixB as bs

/-- Boolean substring test: `containsSub needle hay` models JS
`hay.includes(needle)`. -/
def containsSub (needle : List Char) : List Char → Bool
  | [] => isPrefixB needle []
  | c :: t => isPrefixB needle (c :: t) || containsSub needle t

/-- JS `hay.includes(needle)` on strings. -/
def strContains (hay needle : String) : Bool :=
  containsSub needle.data hay.data

/-- Lower-case a string character-wise (JS `toLowerCase` on ASCII data). -/
def lowerStr (s : String) : String :=
  String.mk (s.data.map Char.toLower)

/-! ## MCP server model (`src/unnamed/part_003`)

State held by `KeyVaultMCPServer`: `this.vault` and `this.sessionKey`
(constructor, lines 42–43).  Vault records come from `vault.json`. -/

/-- One `vault.keys` record as the MCP server reads it. -/
structure MCPKey where
  id : String
  serviceName : String
  /-- hex ciphertext stored at rest -/
  keyValue : String
  environment : String
  tags : List String
  notes : Option String
  lastUsed : Option String
  usageCount : Nat
  expiresAt : Option String
  domains : List String
  rateLimit : Option String
deriving Repr, DecidableEq

/-- The `vault.json` root as the MCP server consumes it. -/
structure MCPVault where
  passwordHash : String
  keys : List MCPKey
deriving Repr, DecidableEq

/-- In-memory state of `KeyVaultMCPServer`. -/
structure MCPState where
  vault : Option MCPVault
  sessionKey : Option String
deriving Repr, DecidableEq

/-- Minimal JSON string escaping (backslash and double quote), as
`JSON.stringify` applies to string values. -/
def jsonEscape (s : String) : String :=
  String.mk (s.data.foldr
    (fun c acc => if c = '"' || c = '\\' then '\\' :: c :: acc else c :: acc) [])

/-- Contents `saveSession` writes to `mcp-session.json`
(`JSON.stringify({key: this.sessionKey, timestamp})`, lines 290–299). -/
def sessionFileContents (key timestamp : String) : String :=
  "\x7b\"key\":\"" ++ jsonEscape key ++ "\",\"timestamp\":\"" ++
    jsonEscape timestamp ++ "\"\x7d"

/-- Result variants of the MCP `unlock_vault` tool. -/
inductive UnlockResult where
  | vaultNotFound
  | invalidPassword
  | unlocked (entryCount : Nat)
deriving Repr, DecidableEq

/-- Everything observable about one `unlockVault` call: the new server
state, the textual result, the bytes written to the session file (if any),
and the backoff delay inserted before responding.  The source contains no
sleep or timer on any path of `unlockVault` (lines 301–340), so
`backoffMs` is `0` on every branch. -/
structure UnlockOutcome where
  state : MCPState
  result : UnlockResult
  sessionWrite : Option String
  backoffMs : Nat
deriving Repr, DecidableEq

/-- `unlockVault(password)` (lines 301–340).  `sha256hex` abstracts
`crypto.createHash('sha256').update(password).digest('hex')`; `ts`
abstracts `new Date().toISOString()`.  On success the server caches the
plaintext password (`this.sessionKey = password`, line 329) and persists
it via `saveSession` (line 330). -/
def unlockVault (sha256hex : String → String) (ts : String)
    (st : MCPState) (password : String) : UnlockOutcome :=
  match st.vault with
  | none => ⟨st, .vaultNotFound, none, 0⟩
  | some v =>
    let passwordHash := sha256hex password
    if passwordHash ≠ v.passwordHash then
      ⟨st, .invalidPassword, none, 0⟩
    else
      ⟨{ st with sessionKey := some password }, .unlocked v.keys.length,
        some (sessionFileContents password ts), 0⟩

/-- Cipher name the MCP server passes to `crypto.createDecipher`
(line 553). -/
def mcpDecryptCipher : String := "aes-256-cbc"

/-- Hash algorithm name the MCP server passes to `crypto.createHash` when
verifying the master password (line 315). -/
def mcpVerifyHashAlgorithm : String := "sha256"

/-- `KeyVaultMCPServer.decrypt` (lines 552–557): a single call to the
Node `createDecipher` primitive with the fixed cipher name and the cached
session key; `prim` abstracts the Node cipher. -/
def mcpDecrypt (prim : String → String → String → String)
    (sessionKey encrypted : String) : String :=
  prim mcpDecryptCipher sessionKey encrypted

/-- The password check inside `unlockVault` (lines 315–317): ordinary
string comparison of the unsalted digest with the stored
`vault.passwordHash`. -/
def mcpVerify (sha256hex : String → String) (v : MCPVault)
    (password : String) : Bool :=
  sha256hex password == v.passwordHash

/-! ## Extension crypto model (`EncryptionService` in `src/cli/README.md`)

`pbkdf2` abstracts `crypto.subtle.deriveBits` with PBKDF2-HMAC-SHA-256;
byte buffers are `List Nat`. -/

/-- `this.iterations` of `EncryptionService`. -/
def extIterations : Nat := 100000

/-- `this.saltLength` of `EncryptionService`. -/
def extSaltLength : Nat := 16

/-- `this.algorithm` of `EncryptionService`. -/
def extAlgorithm : String := "AES-GCM"

/-- `this.keyLength` of `EncryptionService`. -/
def extKeyLength : Nat := 256

/-- `EncryptionService.hashPassword`: the stored verifier is
`salt || PBKDF2(password, salt)`. -/
def hashPassword (pbkdf2 : String → List Nat → List Nat) (salt : List Nat)
    (password : String) : List Nat :=
  salt ++ pbkdf2 password salt

/-- `EncryptionService.constantTimeEqual`: length check, then an
accumulated-OR-of-XOR loop over every index. -/
def constantTimeEqual (a b : List Nat) : Bool :=
  if a.length ≠ b.length then false
  else ((a.zip b).foldl (fun r p => r ||| (p.1 ^^^ p.2)) 0) == 0

/-- `EncryptionService.verifyMasterPassword` (stored verifier present):
split the stored bytes into the 16-byte salt and the tag, re-derive with
the same salt, compare in constant time. -/
def verifyMasterPassword (pbkdf2 : String → List Nat → List Nat)
    (stored : List Nat) (password : String) : Bool :=
  let salt := stored.take extSaltLength
  let storedHash := stored.drop extSaltLength
  constantTimeEqual storedHash (pbkdf2 password salt)

/-! ## Extension storage model (`StorageManager` and the background
message handlers in `src/cli/README.md`) -/

/-- One stored key record of the extension vault (`addKey`, lines
189–205).  `keyValue` holds the base64 ciphertext at rest. -/
structure ExtKey where
  id : String
  serviceName : String
  keyValue : String
  environment : String
  tags : List String
  createdAt : Nat
  lastUsed : Option Nat
  usageCount : Nat
  expiresAt : Option Nat
  notes : String
  domains : List String
  color : String
  favorite : Bool
  rateLimit : String
deriving Repr, DecidableEq

/-- The persisted `vaultData` root (fields the claims touch). -/
structure VaultData where
  initialized : Bool
  keys : List ExtKey
  lastActivity : Nat
deriving Repr, DecidableEq

/-- In-memory state of `StorageManager` plus the persisted root. -/
structure ExtState where
  sessionKey : Option String
  isUnlocked : Bool
  data : VaultData
deriving Repr, DecidableEq

/-- Errors thrown by `StorageManager` methods. -/
inductive VErr where
  /-- `throw new Error('Vault is locked')` -/
  | vaultLocked
  /-- `throw new Error('Key not found')` -/
  | keyNotFound
  /-- `decryptData` rejected -/
  | decryptFailed
deriving Repr, DecidableEq

/-- JS `v || dflt` on strings (empty string is falsy). -/
def jsOrStr (v : Option String) (dflt : String) : String :=
  match v with
  | some s => if s = "" then dflt else s
  | none => dflt

/-- JS `v || null` on numbers (`0` is falsy). -/
def jsOrNullNat (v : Option Nat) : Option Nat :=
  match v with
  | some 0 => none
  | some n => some n
  | none => none

/-- Replace the first list element satisfying `p` by its image under `f`
(JS `findIndex` + in-place mutation of the found object). -/
def updateFirst (p : α → Bool) (f : α → α) : List α → List α
  | [] => []
  | x :: t => if p x then f x :: t else x :: updateFirst p f t

/-- The comparator of `getAllKeys` (lines 139–143): favorites first, then
`(b.lastUsed || 0) - (a.lastUsed || 0)`. -/
def cmpKeys (a b : ExtKey) : Int :=
  if a.favorite && !b.favorite then -1
  else if !a.favorite && b.favorite then 1
  else ((b.lastUsed.getD 0 : Nat) : Int) - ((a.lastUsed.getD 0 : Nat) : Int)

/-- Insert into a sorted prefix keeping existing elements first on ties
(the stable placement mandated for JS `Array.prototype.sort`). -/
def jsSortInsert (cmp : α → α → Int) (a : α) : List α → List α
  | [] => [a]
  | b :: t => if cmp b a ≤ 0 then b :: jsSortInsert cmp a t else a :: b :: t

/-- Stable sort with a JS-style comparator, processing elements left to
right. -/
def jsSort (cmp : α → α → Int) (l : List α) : List α :=
  l.foldl (fun acc a => jsSortInsert cmp a acc) []

/-- Decrypt every entry, silently dropping entries whose decryption fails
(the `try/catch` with `console.error` in `getAllKeys`, lines 123–136). -/
def decryptAllKeys (dec : String → String → Option String) (sessionKey : String)
    (keys : List ExtKey) : List ExtKey :=
  keys.filterMap (fun k =>
    (dec k.keyValue sessionKey).map (fun v => { k with keyValue := v }))

/-- `StorageManager.getAllKeys` (lines 115–147): locked check, decrypt
every key, sort, update `lastActivity`. -/
def getAllKeys (dec : String → String → Option String) (now : Nat)
    (st : ExtState) : Except VErr (List ExtKey × ExtState) :=
  if !st.isUnlocked then .error .vaultLocked
  else
    let ks := decryptAllKeys dec (st.sessionKey.getD "") st.data.keys
    .ok (jsSort cmpKeys ks,
      { st with data := { st.data with lastActivity := now } })

/-- `StorageManager.getKey` (lines 152–174). -/
def getKey (dec : String → String → Option String) (now : Nat)
    (st : ExtState) (id : String) : Except VErr (ExtKey × ExtState) :=
  if !st.isUnlocked then .error .vaultLocked
  else
    match st.data.keys.find? (fun k => k.id == id) with
    | none => .error .keyNotFound
    | some k =>
      match dec k.keyValue (st.sessionKey.getD "") with
      | none => .error .decryptFailed
      | some v =>
        .ok ({ k with keyValue := v },
          { st with data := { st.data with lastActivity := now } })

/-- Caller-supplied fields of `addKey` (`keyData`). -/
structure KeyData where
  serviceName : String
  keyValue : String
  environment : Option String
  tags : Option (List String)
  expiresAt : Option Nat
  notes : Option String
  domains : Option (List String)
  color : Option String
  favorite : Option Bool
  rateLimit : Option String
deriving Repr, DecidableEq

/-- `StorageManager.addKey` (lines 179–216); `id` and `color` stand for
the `generateId()` / `getRandomColor()` draws. -/
def addKey (enc : String → String → String) (id color : String) (now : Nat)
    (st : ExtState) (kd : KeyData) : Except VErr (String × ExtState) :=
  if !st.isUnlocked then .error .vaultLocked
  else
    let newKey : ExtKey := {
      id := id
      serviceName := kd.serviceName
      keyValue := enc kd.keyValue (st.sessionKey.getD "")
      environment := jsOrStr kd.environment "production"
      tags := kd.tags.getD []
      createdAt := now
      lastUsed := none
      usageCount := 0
      expiresAt := jsOrNullNat kd.expiresAt
      notes := jsOrStr kd.notes ""
      domains := kd.domains.getD []
      color := jsOrStr kd.color color
      favorite := kd.favorite.getD false
      rateLimit := jsOrStr kd.rateLimit "" }
    .ok (id, { st with data := { st.data with
      keys := st.data.keys ++ [newKey], lastActivity := now } })

/-- A partial update object as accepted by `updateKey`; `none` means the
field is absent from the object. -/
structure KeyUpdates where
  id : Option String
  serviceName : Option String
  keyValue : Option String
  environment : Option String
  tags : Option (List String)
  domains : Option (List String)
  rateLimit : Option String
  notes : Option String
  favorite : Option Bool
  expiresAt : Option Nat
  usageCount : Option Nat
  lastUsed : Option (Option Nat)
deriving Repr, DecidableEq

/-- The empty partial update. -/
def noUpdates : KeyUpdates :=
  ⟨none, none, none, none, none, none, none, none, none, none, none, none⟩

/-- The object-spread merge of `updateKey` (lines 233–244): a truthy
`updates.keyValue` is re-encrypted first, then every present field
overwrites the stored one. -/
def applyUpdates (enc : String → String → String) (sessionKey : String)
    (k : ExtKey) (u : KeyUpdates) : ExtKey :=
  let encKV : Option String := match u.keyValue with
    | some s => if s = "" then some s else some (enc s sessionKey)
    | none => none
  { k with
    id := u.id.getD k.id
    serviceName := u.serviceName.getD k.serviceName
    keyValue := encKV.getD k.keyValue
    environment := u.environment.getD k.environment
    tags := u.tags.getD k.tags
    domains := u.domains.getD k.domains
    rateLimit := u.rateLimit.getD k.rateLimit
    notes := u.notes.getD k.notes
    favorite := u.favorite.getD k.favorite
    expiresAt := match u.expiresAt with | some n => some n | none => k.expiresAt
    usageCount := u.usageCount.getD k.usageCount
    lastUsed := u.lastUsed.getD k.lastUsed }

/-- `StorageManager.updateKey` (lines 221–248). -/
def updateKey (enc : String → String → String) (now : Nat) (st : ExtState)
    (id : String) (u : KeyUpdates) : Except VErr ExtState :=
  if !st.isUnlocked then .error .vaultLocked
  else if st.data.keys.all (fun k => !(k.id == id)) then .error .keyNotFound
  else .ok { st with data := { st.data with
    keys := updateFirst (fun k => k.id == id)
      (fun k => applyUpdates enc (st.sessionKey.getD "") k u) st.data.keys,
    lastActivity := now } }

/-- `StorageManager.deleteKey` (lines 253–262). -/
def deleteKey (now : Nat) (st : ExtState) (id : String) : Except VErr ExtState :=
  if !st.isUnlocked then .error .vaultLocked
  else .ok { st with data := { st.data with
    keys := st.data.keys.filter (fun k => !(k.id == id)),
    lastActivity := now } }

/-- The mutation `recordKeyUsage` applies to the found key (lines
276–281). -/
def recordUsageUpdate (now : Nat) (domain : String) (k : ExtKey) : ExtKey :=
  { k with
    lastUsed := some now
    usageCount := k.usageCount + 1
    domains := if domain ≠ "" && !(k.domains.contains domain)
      then k.domains ++ [domain] else k.domains }

/-- `StorageManager.recordKeyUsage` (lines 267–286): when the id is
missing nothing is persisted and no error is raised. -/
def recordKeyUsage (now : Nat) (st : ExtState) (id domain : String) :
    Except VErr ExtState :=
  if !st.isUnlocked then .error .vaultLocked
  else if st.data.keys.all (fun k => !(k.id == id)) then .ok st
  else .ok { st with data := { st.data with
    keys := updateFirst (fun k => k.id == id) (recordUsageUpdate now domain)
      st.data.keys,
    lastActivity := now } }

/-- `StorageManager.lockVault` (lines 100–103). -/
def lockVaultExt (st : ExtState) : ExtState :=
  { st with sessionKey := none, isUnlocked := false }

/-- `StorageManager.unlockVault` (lines 85–95); `verify` abstracts
`EncryptionService.verifyMasterPassword` against the stored verifier. -/
def unlockVaultExt (verify : String → Bool) (now : Nat) (st : ExtState)
    (password : String) : ExtState :=
  if verify password then
    { st with
      sessionKey := some password
      isUnlocked := true
      data := { st.data with lastActivity := now } }
  else st

/-- `StorageManager.exportData` (lines 351–362). -/
def exportData (st : ExtState) : Except VErr (List ExtKey) :=
  if !st.isUnlocked then .error .vaultLocked
  else .ok st.data.keys

/-- `StorageManager.importData` (lines 367–387): merge, skipping keys
whose `serviceName` already exists. -/
def importData (st : ExtState) (imported : List ExtKey) : Except VErr ExtState :=
  if !st.isUnlocked then .error .vaultLocked
  else
    let existing := st.data.keys.map (fun k => k.serviceName)
    let newKeys := imported.filter (fun k => !(existing.contains k.serviceName))
    .ok { st with data := { st.data with keys := st.data.keys ++ newKeys } }

/-- The four-field match of the background `searchKeys` handler (lines
678–683): service name, tags, notes, environment. -/
def extSearchMatch (query : String) (k : ExtKey) : Bool :=
  let lq := lowerStr query
  strContains (lowerStr k.serviceName) lq ||
  k.tags.any (fun t => strContains (lowerStr t) lq) ||
  strContains (lowerStr k.notes) lq ||
  strContains (lowerStr k.environment) lq

/-- Background `searchKeys` handler (lines 673–689): decrypt-all then
filter. -/
def searchKeysBg (dec : String → String → Option String) (now : Nat)
    (st : ExtState) (query : String) : Except VErr (List ExtKey × ExtState) :=
  match getAllKeys dec now st with
  | .error e => .error e
  | .ok (ks, st') => .ok (ks.filter (extSearchMatch query), st')

/-- `KeyVaultPopup.searchKeys` (`src/popup/popup.js`, lines 176–190):
empty query shows everything, otherwise filter over serviceName, tags,
environment, notes. -/
def popupSearchKeys (keys : List ExtKey) (query : String) : List ExtKey :=
  if query = "" then keys
  else
    let lq := lowerStr query
    keys.filter (fun k =>
      strContains (lowerStr k.serviceName) lq ||
      k.tags.any (fun t => strContains (lowerStr t) lq) ||
      strContains (lowerStr k.environment) lq ||
      strContains (lowerStr k.notes) lq)

/-- The authenticated operations of the story: one constructor per
message-handler path that requires the unlocked vault. -/
inductive ExtOp where
  | getAll
  | get (id : String)
  | add (id color : String) (kd : KeyData)
  | update (id : String) (u : KeyUpdates)
  | del (id : String)
  | recordUsage (id domain : String)
  | search (query : String)
  | exportAll
  | importAll (keys : List ExtKey)
deriving Repr, DecidableEq

/-- Run one authenticated operation, returning the successor state. -/
def runOp (dec : String → String → Option String)
    (enc : String → String → String) (now : Nat) (op : ExtOp)
    (st : ExtState) : Except VErr ExtState :=
  match op with
  | .getAll => (getAllKeys dec now st).map (fun r => r.2)
  | .get id => (getKey dec now st id).map (fun r => r.2)
  | .add id color kd => (addKey enc id color now st kd).map (fun r => r.2)
  | .update id u => updateKey enc now st id u
  | .del id => deleteKey now st id
  | .recordUsage id domain => recordKeyUsage now st id domain
  | .search q => (searchKeysBg dec now st q).map (fun r => r.2)
  | .exportAll => (exportData st).map (fun _ => st)
  | .importAll ks => importData st ks

/-- Total step: a thrown error leaves the persisted state unchanged. -/
def stepOp (dec : String → String → Option String)
    (enc : String → String → String) (now : Nat) (op : ExtOp)
    (st : ExtState) : ExtState :=
  match runOp dec enc now op st with
  | .ok st' => st'
  | .error _ => st

/-- Run a timed sequence of operations. -/
def runOps (dec : String → String → Option String)
    (enc : String → String → String) (ops : List (Nat × ExtOp))
    (st : ExtState) : ExtState :=
  ops.foldl (fun s p => stepOp dec enc p.1 p.2 s) st

/-- Usage counter of the entry with the given id, if present. -/
def usageOf (st : ExtState) (id : String) : Option Nat :=
  (st.data.keys.find? (fun k => k.id == id)).map (fun k => k.usageCount)

/-- The entry with the given id, if present. -/
def keyOf (st : ExtState) (id : String) : Option ExtKey :=
  st.data.keys.find? (fun k => k.id == id)

/-- Operations that neither delete an entry nor overwrite its identity or
its usage counter through an update partial. -/
def safeOp : ExtOp → Bool
  | .update _ u => u.usageCount.isNone && u.id.isNone
  | .del _ => false
  | _ => true

/-! ## MCP query operations -/

/-- The projection `listApiKeys` returns (lines 409–416): no `keyValue`
field exists in the view. -/
structure MCPKeyView where
  serviceName : String
  environment : String
  tags : List String
  hasExpiration : Bool
  lastUsed : Option String
  usageCount : Nat
deriving Repr, DecidableEq

/-- `KeyVaultMCPServer.listApiKeys` after `requireUnlocked` (lines
396–426). -/
def listApiKeys (v : MCPVault) (environment : Option String)
    (tags : Option (List String)) : List MCPKeyView :=
  let ks : List MCPKey := v.keys
  let ks : List MCPKey := match environment with
    | some e => if e = "" then ks else ks.filter (fun k => k.environment == e)
    | none => ks
  let ks : List MCPKey := match tags with
    | some ts => if ts.length > 0
        then ks.filter (fun k => ts.any (fun t => k.tags.contains t)) else ks
    | none => ks
  ks.map (fun (k : MCPKey) => (⟨k.serviceName, k.environment, k.tags,
    k.expiresAt.isSome, k.lastUsed, k.usageCount⟩ : MCPKeyView))

/-- `KeyVaultMCPServer.searchApiKeys` after `requireUnlocked` (lines
428–453): service name, tags, and truthy notes — the environment field is
not consulted. -/
def searchApiKeys (v : MCPVault) (query : String) : List MCPKey :=
  let lq := lowerStr query
  v.keys.filter (fun k =>
    strContains (lowerStr k.serviceName) lq ||
    k.tags.any (fun t => strContains (lowerStr t) lq) ||
    (match k.notes with
     | some n => !(n == "") && strContains (lowerStr n) lq
     | none => false))

/-- The find of `getApiKey` (lines 458–461). -/
def mcpKeyMatch (serviceName environment : String) (k : MCPKey) : Bool :=
  lowerStr k.serviceName == lowerStr serviceName && k.environment == environment

/-- Observable outcome of `getApiKey`: successor state, bytes written to
`vault.json` (modelled as the serialized vault record), plaintext put in
the response, error flag. -/
structure ApiKeyOutcome where
  state : MCPState
  vaultWrite : Option MCPVault
  plaintext : Option String
  isError : Bool
deriving Repr, DecidableEq

/-- `KeyVaultMCPServer.getApiKey` (lines 455–508): find by lower-cased
service name and environment, decrypt, bump `lastUsed`/`usageCount`, and
persist the whole vault. -/
def getApiKey (prim : String → String → String → String) (ts : String)
    (st : MCPState) (serviceName environment : String) : ApiKeyOutcome :=
  match st.vault, st.sessionKey with
  | none, _ => ⟨st, none, none, true⟩
  | some _, none => ⟨st, none, none, true⟩
  | some v, some sk =>
    match v.keys.find? (mcpKeyMatch serviceName environment) with
    | none => ⟨st, none, none, true⟩
    | some key =>
      let decrypted := mcpDecrypt prim sk key.keyValue
      let bump := fun (k : MCPKey) =>
        { k with lastUsed := some ts, usageCount := k.usageCount + 1 }
      let v' : MCPVault :=
        { v with keys := updateFirst (mcpKeyMatch serviceName environment) bump v.keys }
      ⟨{ st with vault := some v' }, some v', some decrypted, false⟩

/-- Consecutive failed MCP unlock attempts with the same password. -/
def runFailedUnlocks (sha : String → String) (ts : String) (pw : String) :
    Nat → MCPState → MCPState
  | 0, st => st
  | n + 1, st => runFailedUnlocks sha ts pw n (unlockVault sha ts st pw).state

/-! ## Spec-side definitions for refinement comparisons -/

/-- Modelled from the spec wording of C7, for comparison with the code:
the query is a case-insensitive substring of `service_name`, of a tag, of
`environment`, or of `notes`. -/
def specSearchMatch (query : String) (k : ExtKey) : Bool :=
  let lq := lowerStr query
  strContains (lowerStr k.serviceName) lq ||
  k.tags.any (fun t => strContains (lowerStr t) lq) ||
  strContains (lowerStr k.environment) lq ||
  strContains (lowerStr k.notes) lq

/-- Modelled from the spec wording of C7, on MCP records (`notes` absent
reads as empty). -/
def specSearchMatchMCP (query : String) (k : MCPKey) : Bool :=
  let lq := lowerStr query
  strContains (lowerStr k.serviceName) lq ||
  k.tags.any (fun t => strContains (lowerStr t) lq) ||
  strContains (lowerStr k.environment) lq ||
  strContains (lowerStr (k.notes.getD "")) lq

/-- Modelled from the spec wording of C8, for comparison with the code:
favorites first, then `last_used_at` descending with nulls last, then
`created_at` descending, ties lexicographic on `id`. -/
def specCmp (a b : ExtKey) : Int :=
  let byCreated : Int :=
    if a.createdAt ≠ b.createdAt then (b.createdAt : Int) - (a.createdAt : Int)
    else if a.id < b.id then -1 else if a.id = b.id then 0 else 1
  if a.favorite && !b.favorite then -1
  else if !a.favorite && b.favorite then 1
  else
    match a.lastUsed, b.lastUsed with
    | some x, some y => if x ≠ y then (y : Int) - (x : Int) else byCreated
    | some _, none => -1
    | none, some _ => 1
    | none, none => byCreated

/-- The ordering the spec claims for the default list. -/
def specSort (l : List ExtKey) : List ExtKey := jsSort specCmp l

/-! ## CSV import/export (`src/lib/import-export.js`)

Character-level processing, so all strings in this section are
`List Char`. -/

/-- Whitespace for JS `trim()` (the characters that occur here). -/
def isWSChar (c : Char) : Bool :=
  c = ' ' || c = '\t' || c = '\n' || c = '\r'

/-- JS `s.trim()`. -/
def trimC (s : List Char) : List Char :=
  ((s.dropWhile isWSChar).reverse.dropWhile isWSChar).reverse

/-- JS `s.split(sep)` for a character-class separator: split at every
separator character, keeping empty pieces. -/
def splitOnP (p : Char → Bool) : List Char → List (List Char)
  | [] => [[]]
  | c :: t =>
    if p c then [] :: splitOnP p t
    else
      match splitOnP p t with
      | [] => [[c]]
      | h :: r => (c :: h) :: r

/-- JS `array.join(sep)`. -/
def joinSep (sep : List Char) : List (List Char) → List Char
  | [] => []
  | [x] => x
  | x :: y :: t => x ++ sep ++ joinSep sep (y :: t)

/-- `ImportExportManager.escapeCSV` (lines 333–340): empty value becomes
`""`; a value containing a comma, quote or newline is quoted with quotes
doubled; otherwise the value is quoted as is. -/
def escapeCSV (value : List Char) : List Char :=
  if value = [] then ['"', '"']
  else if value.contains ',' || value.contains '"' || value.contains '\n' then
    '"' :: ((value.map (fun c => if c = '"' then ['"', '"'] else [c])).flatten ++ ['"'])
  else '"' :: (value ++ ['"'])

/-- The character loop of `ImportExportManager.parseCSVLine` (lines
308–326): quotes toggle `inQuotes` and are dropped, commas outside quotes
split, every pushed value is trimmed. -/
def parseCSVAux : List Char → List (List Char) → List Char → Bool → List (List Char)
  | [], values, current, _ => values ++ [trimC current]
  | c :: rest, values, current, inQuotes =>
    if c = '"' then parseCSVAux rest values current (!inQuotes)
    else if c = ',' && !inQuotes then
      parseCSVAux rest (values ++ [trimC current]) [] inQuotes
    else parseCSVAux rest values (current ++ [c]) inQuotes

/-- Drop one leading double quote, if present. -/
def dropLeadQuote (s : List Char) : List Char :=
  match s with
  | c :: t => if c = '"' then t else c :: t
  | [] => []

/-- The final `replace` of `parseCSVLine` (line 327): drop one leading
and one trailing double quote. -/
def stripEdgeQuotes (s : List Char) : List Char :=
  let s1 := dropLeadQuote s
  (dropLeadQuote s1.reverse).reverse

/-- `ImportExportManager.parseCSVLine` (lines 308–328). -/
def parseCSVLine (line : List Char) : List (List Char) :=
  (parseCSVAux line [] [] false).map stripEdgeQuotes

/-- `ImportExportManager.extractTags` (lines 357–360): split on commas
and semicolons, trim, drop empties. -/
def extractTags (s : List Char) : List (List Char) :=
  if s = [] then []
  else ((splitOnP (fun c => c = ',' || c = ';') s).map trimC).filter
    (fun t => t ≠ [])

/-- Lower-case a character list. -/
def lowerL (s : List Char) : List Char := s.map Char.toLower

/-- Column mapping detected by `detectCSVMapping` (lines 377–407);
`-1` means not found. -/
structure CSVMapping where
  serviceName : Int
  keyValue : Int
  environment : Int
  tags : Int
  notes : Int
deriving Repr, DecidableEq

/-- `header.includes(needle)` over a list of needles. -/
def headerHasAny (h : List Char) (needles : List (List Char)) : Bool :=
  needles.any (fun n => containsSub n h)

/-- `ImportExportManager.detectCSVMapping` (lines 377–407): each header
is lower-cased and tested for the keyword substrings; later headers
overwrite earlier matches. -/
def detectCSVMapping (headers : List (List Char)) : CSVMapping :=
  headers.enum.foldl
    (fun m p =>
      let idx : Int := p.1
      let h := lowerL p.2
      let m := if headerHasAny h ["service".data, "name".data, "title".data]
        then { m with serviceName := idx } else m
      let m := if headerHasAny h
          ["key".data, "password".data, "secret".data, "token".data]
        then { m with keyValue := idx } else m
      let m := if headerHasAny h ["environment".data, "env".data]
        then { m with environment := idx } else m
      let m := if headerHasAny h ["tag".data]
        then { m with tags := idx } else m
      let m := if headerHasAny h ["note".data, "description".data]
        then { m with notes := idx } else m
      m)
    ⟨-1, -1, -1, -1, -1⟩

/-- JS `values[i]` with an `Int` index; out of range reads as the empty
(falsy) string. -/
def jsIndex (values : List (List Char)) (i : Int) : List Char :=
  if i < 0 then [] else values.getD i.toNat []

/-- An entry as `importCSV` constructs it (`domains` is always `[]` and
`favorite` always `false` there). -/
structure ImportedEntry where
  serviceName : List Char
  keyValue : List Char
  environment : List Char
  tags : List (List Char)
  notes : List Char
deriving Repr, DecidableEq

/-- One loop iteration of `importCSV` (lines 148–164): skip blank lines,
parse, and keep the row only when the key-value column is present and
truthy. -/
def importRow (m : CSVMapping) (line : List Char) : Option ImportedEntry :=
  if trimC line = [] then none
  else
    let values := parseCSVLine line
    if m.keyValue ≠ -1 && jsIndex values m.keyValue ≠ [] then
      some {
        serviceName := if m.serviceName ≠ -1 then jsIndex values m.serviceName
          else "Imported Key".data
        keyValue := jsIndex values m.keyValue
        environment := if m.environment ≠ -1 then jsIndex values m.environment
          else "production".data
        tags := if m.tags ≠ -1 then extractTags (jsIndex values m.tags) else []
        notes := if m.notes ≠ -1 then jsIndex values m.notes else [] }
    else none

/-- `ImportExportManager.importCSV` (lines 140–172): headers from the
first line (trimmed, quotes removed, lower-cased), then one entry per
accepted row. -/
def importCSV (content : List Char) : List ImportedEntry :=
  match splitOnP (fun c => c = '\n') content with
  | [] => []
  | header :: rows =>
    let headers := (splitOnP (fun c => c = ',') header).map
      (fun h => lowerL ((trimC h).filter (fun c => !(c = '"'))))
    let m := detectCSVMapping headers
    rows.filterMap (importRow m)

/-- An entry as `exportToCSV` consumes it. -/
structure CsvEntry where
  serviceName : List Char
  keyValue : List Char
  environment : List Char
  tags : List (List Char)
  notes : List Char
  domains : List (List Char)
  createdAt : Nat
deriving Repr, DecidableEq

/-- The header row of `exportToCSV` (line 226). -/
def csvHeaderRow : List Char :=
  "Service Name,API Key,Environment,Tags,Notes,Domains,Created At".data

/-- JS `array.join(', ')`. -/
def joinCommaSpace (l : List (List Char)) : List Char := joinSep [',', ' '] l

/-- One data row of `exportToCSV` (lines 229–239); `iso` abstracts
`new Date(key.createdAt).toISOString()`. -/
def csvRow (iso : Nat → List Char) (k : CsvEntry) : List Char :=
  joinSep [','] [escapeCSV k.serviceName, escapeCSV k.keyValue,
    escapeCSV k.environment, escapeCSV (joinCommaSpace k.tags),
    escapeCSV k.notes, escapeCSV (joinCommaSpace k.domains),
    iso k.createdAt]

/-- `ImportExportManager.exportToCSV` (lines 225–243). -/
def exportToCSV (iso : Nat → List Char) (keys : List CsvEntry) : List Char :=
  joinSep ['\n'] (csvHeaderRow :: keys.map (csvRow iso))

/-- The five fields `importCSV` recovers from an exported entry. -/
def toImported (k : CsvEntry) : ImportedEntry :=
  ⟨k.serviceName, k.keyValue, k.environment, k.tags, k.notes⟩

/-- A character list is free of double quotes and newlines and is
`trim`-invariant (no leading or trailing whitespace). -/
def cleanField (s : List Char) : Prop :=
  s.contains '"' = false ∧ s.contains '\n' = false ∧ trimC s = s

instance (s : List Char) : Decidable (cleanField s) := by
  unfold cleanField; infer_instance

/-- The round-trip precondition on one entry: clean scalar fields, a
non-empty key value, clean non-empty separator-free tags, and domains
free of newlines. -/
def GoodEntry (k : CsvEntry) : Prop :=
  cleanField k.serviceName ∧ cleanField k.keyValue ∧ k.keyValue ≠ [] ∧
  cleanField k.environment ∧ cleanField k.notes ∧
  (∀ t ∈ k.tags, cleanField t ∧ t ≠ [] ∧ t.contains ',' = false ∧
    t.contains ';' = false) ∧
  (∀ d ∈ k.domains, d.contains '\n' = false)

instance (k : CsvEntry) : Decidable (GoodEntry k) := by
  unfold GoodEntry; infer_instance

/-! ## Timing model for comparisons (claim C5)

Each comparison is instrumented with the number of loop iterations /
character comparisons it performs; this is the cost model in which
constant-time behaviour is stated. -/

/-- Instrumented `constantTimeEqual`: result plus loop iterations. -/
def constantTimeEqualT (a b : List Nat) : Bool × Nat :=
  if a.length ≠ b.length then (false, 0)
  else
    let r := (a.zip b).foldl
      (fun (p : Nat × Nat) q => (p.1 ||| (q.1 ^^^ q.2), p.2 + 1)) (0, 0)
    (r.1 == 0, r.2)

/-- Instrumented character-by-character string equality with early exit
on the first mismatch, modelling the `!==` comparison of hex digest
strings at line 317 of the MCP server; the `Nat` is the number of
character comparisons performed. -/
def jsStrEqT : List Char → List Char → Bool × Nat
  | [], [] => (true, 0)
  | [], _ :: _ => (false, 0)
  | _ :: _, [] => (false, 0)
  | a :: as, b :: bs =>
    if a ≠ b then (false, 1)
    else
      let r := jsStrEqT as bs
      (r.1, r.2 + 1)

/-- The MCP password check of lines 315–317 under the timing model. -/
def mcpVerifyT (sha256hex : String → String) (v : MCPVault)
    (password : String) : Bool × Nat :=
  jsStrEqT (sha256hex password).data v.passwordHash.data

/-! ## Theorems -/

theorem isPrefixB_self_append (s t : List Char) : isPrefixB s (s ++ t) = true := by
  induction s with
  | nil => rfl
  | cons c cs ih => simp [isPrefixB, ih]

theorem containsSub_append_left (needle pre post : List Char)
    (h : containsSub needle post = true) :
    containsSub needle (pre ++ post) = true := by
  induction pre with
  | nil => simpa using h
  | cons c cs ih =>
    simp only [List.cons_append, containsSub, Bool.or_eq_true]
    exact Or.inr ih

theorem containsSub_nil (l : List Char) : containsSub [] l = true := by
  cases l with
  | nil => rfl
  | cons c t => simp [containsSub, isPrefixB]

theorem containsSub_of_middle (needle pre post : List Char) :
    containsSub needle (pre ++ (needle ++ post)) = true := by
  apply containsSub_append_left
  cases needle with
  | nil => exact containsSub_nil _
  | cons c cs =>
    simp only [containsSub, Bool.or_eq_true]
    exact Or.inl (isPrefixB_self_append _ _)

theorem jsonEscape_id (s : String)
    (h : ∀ c ∈ s.data, c ≠ '"' ∧ c ≠ '\\') :
    jsonEscape s = s := by
  cases s with
  | mk data =>
    have : ∀ l : List Char, (∀ c ∈ l, c ≠ '"' ∧ c ≠ '\\') →
        (l.foldr (fun c acc =>
          if c = '"' || c = '\\' then '\\' :: c :: acc else c :: acc) []) = l := by
      intro l hl
      induction l with
      | nil => rfl
      | cons c t ih =>
        have hc := hl c (by simp)
        rw [List.foldr_cons, ih (fun x hx => hl x (by simp [hx]))]
        simp [hc.1, hc.2]
    simpa [jsonEscape] using congrArg String.mk (this data h)

theorem constantTimeEqual_self (a : List Nat) : constantTimeEqual a a = true := by
  unfold constantTimeEqual
  rw [if_neg (by simp)]
  have h : ∀ l : List Nat, ∀ acc : Nat,
      ((l.zip l).foldl (fun r p => r ||| (p.1 ^^^ p.2)) acc) = acc := by
    intro l
    induction l with
    | nil => intro acc; rfl
    | cons c t ih =>
      intro acc
      simp only [List.zip_cons_cons, List.foldl_cons, Nat.xor_self, Nat.or_zero]
      exact ih acc
  simp [h]

theorem foldl_count_snd (l : List (Nat × Nat)) :
    ∀ x n, (l.foldl (fun (p : Nat × Nat) q => (p.1 ||| (q.1 ^^^ q.2), p.2 + 1)) (x, n)).2
      = n + l.length := by
  induction l with
  | nil => intro x n; simp
  | cons c t ih =>
    intro x n
    simp only [List.foldl_cons, List.length_cons]
    rw [ih]
    omega

theorem constantTimeEqualT_steps (a b : List Nat) (h : a.length = b.length) :
    (constantTimeEqualT a b).2 = a.length := by
  unfold constantTimeEqualT
  rw [if_neg (by simp [h])]
  simp only
  rw [foldl_count_snd]
  simp [List.length_zip, h]

theorem foldl_count_fst (l : List (Nat × Nat)) :
    ∀ x n, (l.foldl (fun (p : Nat × Nat) q => (p.1 ||| (q.1 ^^^ q.2), p.2 + 1)) (x, n)).1
      = l.foldl (fun r q => r ||| (q.1 ^^^ q.2)) x := by
  induction l with
  | nil => intro x n; rfl
  | cons c t ih =>
    intro x n
    simp only [List.foldl_cons]
    exact ih _ _

/-! ## Claim C1 -/

/-- C1: the claim that no operation writes a plaintext secret or the
plaintext master password to persistent storage fails on the code: a
concrete successful MCP unlock writes the session file with the master
password `hunter2` in the clear. -/
theorem c1_counterexample :
    (unlockVault (fun s => "#" ++ s) "2026-10-11T00:00:00.000Z"
        ⟨some ⟨"#hunter2", []⟩, none⟩ "hunter2").sessionWrite =
      some "\x7b\"key\":\"hunter2\",\"timestamp\":\"2026-10-11T00:00:00.000Z\"\x7d" ∧
    strContains "\x7b\"key\":\"hunter2\",\"timestamp\":\"2026-10-11T00:00:00.000Z\"\x7d"
      "hunter2" = true := by
  exact ⟨rfl, rfl⟩

/-- C1 (amended): the MCP server's session save does not store a derived
key with an absolute expiry — after every successful unlock it writes the
JSON object holding the plaintext master password itself together with a
creation timestamp, so the session file contains the master password as a
substring. -/
theorem c1_session_file_holds_master_password
    (sha : String → String) (ts : String) (st : MCPState) (v : MCPVault)
    (password : String) (hv : st.vault = some v)
    (hp : sha password = v.passwordHash)
    (hchars : ∀ c ∈ password.data, c ≠ '"' ∧ c ≠ '\\') :
    (unlockVault sha ts st password).sessionWrite =
      some (sessionFileContents password ts) ∧
    strContains (sessionFileContents password ts) password = true := by
  refine ⟨?_, ?_⟩
  · unfold unlockVault
    rw [hv]
    simp [hp]
  · unfold sessionFileContents strContains
    rw [jsonEscape_id password hchars]
    have h := containsSub_of_middle password.data "\x7b\"key\":\"".data
      ("\",\"timestamp\":\"".data ++ ((jsonEscape ts).data ++ "\"\x7d".data))
    simpa [String.data_append, List.append_assoc] using h

/-- Witness for C1 at a concrete input. -/
theorem c1_witness :
    (unlockVault (fun s => "#" ++ s) "T" ⟨some ⟨"#pw", []⟩, none⟩ "pw").sessionWrite =
      some (sessionFileContents "pw" "T") ∧
    strContains (sessionFileContents "pw" "T") "pw" = true :=
  c1_session_file_holds_master_password (fun s => "#" ++ s) "T"
    ⟨some ⟨"#pw", []⟩, none⟩ ⟨"#pw", []⟩ "pw" rfl rfl (by decide)

/-! ## Claim C2 -/

/-- C2: the claim that every component verifies passwords and decrypts
entries with PBKDF2 plus AES-256-GCM fails on the code: the MCP server
decrypts with the non-AEAD `aes-256-cbc` cipher and verifies the master
password by comparing a single unsalted `sha256` digest against the
stored hash. -/
theorem c2_counterexample :
    mcpDecryptCipher = "aes-256-cbc" ∧ mcpDecryptCipher ≠ "aes-256-gcm" ∧
    mcpVerifyHashAlgorithm = "sha256" ∧
    mcpVerify (fun s => "#" ++ s) ⟨"#pw", []⟩ "pw" = true := by
  exact ⟨rfl, by decide, rfl, rfl⟩

/-- C2 (amended): the browser extension does use the mandated scheme —
its verifier is `salt || PBKDF2(password, salt)` with a 16-byte salt,
100000 iterations and a 256-bit AES-GCM key, and `verifyMasterPassword`
re-derives with the stored salt and accepts the installing password — but
the MCP server verifies with an unsalted `sha256` digest and decrypts
with `aes-256-cbc`. -/
theorem c2_extension_pbkdf2_gcm_mcp_weak
    (pbkdf2 : String → List Nat → List Nat) (salt : List Nat)
    (password : String) (hs : salt.length = extSaltLength) :
    hashPassword pbkdf2 salt password = salt ++ pbkdf2 password salt ∧
    verifyMasterPassword pbkdf2 (hashPassword pbkdf2 salt password) password = true ∧
    extAlgorithm = "AES-GCM" ∧ extKeyLength = 256 ∧ extIterations = 100000 ∧
    extSaltLength = 16 ∧
    mcpDecryptCipher = "aes-256-cbc" ∧ mcpVerifyHashAlgorithm = "sha256" := by
  refine ⟨rfl, ?_, rfl, rfl, rfl, rfl, rfl, rfl⟩
  unfold verifyMasterPassword hashPassword
  rw [← hs, List.take_left, List.drop_left]
  exact constantTimeEqual_self _

/-- Witness for C2 at a concrete input. -/
theorem c2_witness :
    verifyMasterPassword (fun _ _ => List.replicate 32 7)
      (hashPassword (fun _ _ => List.replicate 32 7) (List.replicate 16 0) "pw")
      "pw" = true :=
  (c2_extension_pbkdf2_gcm_mcp_weak (fun _ _ => List.replicate 32 7)
    (List.replicate 16 0) "pw" (by decide)).2.1

/-! ## Claim C3 -/

/-- C3: whenever the vault is locked (and in particular after `lock()`
returns), every authenticated operation — list, get, add, update, delete,
record_usage, search, export, import — fails with the vault-locked error
and leaves the state unchanged, whatever the state, the operation, the
time and the crypto primitives. -/
theorem c3_lock_boundary (dec : String → String → Option String)
    (enc : String → String → String) (now : Nat) (op : ExtOp) (st : ExtState) :
    (∀ st' : ExtState, st'.isUnlocked = false →
      runOp dec enc now op st' = .error .vaultLocked ∧
      stepOp dec enc now op st' = st') ∧
    runOp dec enc now op (lockVaultExt st) = .error .vaultLocked ∧
    stepOp dec enc now op (lockVaultExt st) = lockVaultExt st := by
  have hlock : ∀ st' : ExtState, st'.isUnlocked = false →
      runOp dec enc now op st' = .error .vaultLocked := by
    intro st' h
    cases op <;>
      simp [runOp, getAllKeys, getKey, addKey, updateKey, deleteKey,
        recordKeyUsage, searchKeysBg, exportData, importData, h, Except.map]
  refine ⟨fun st' h => ⟨hlock st' h, ?_⟩, hlock _ rfl, ?_⟩
  · unfold stepOp
    rw [hlock st' h]
  · unfold stepOp
    rw [hlock _ rfl]

/-- Witness for C3 at a concrete locked state. -/
theorem c3_witness :
    runOp (fun _ _ => none) (fun s _ => s) 0 ExtOp.getAll
      ⟨none, false, ⟨true, [], 0⟩⟩ = .error .vaultLocked ∧
    stepOp (fun _ _ => none) (fun s _ => s) 0 ExtOp.getAll
      ⟨none, false, ⟨true, [], 0⟩⟩ = ⟨none, false, ⟨true, [], 0⟩⟩ :=
  (c3_lock_boundary (fun _ _ => none) (fun s _ => s) 0 ExtOp.getAll
    ⟨some "x", true, ⟨true, [], 0⟩⟩).1 ⟨none, false, ⟨true, [], 0⟩⟩ rfl

/-! ## Claim C4 -/

/-- C4: the claim that list never decrypts and returns records free of
ciphertext and plaintext fails on the code: the extension's `getKeys`
path (`getAllKeys`) decrypts every entry — its output contains the
decryption of the stored ciphertext verbatim, and the output changes when
the decryption primitive changes. -/
theorem c4_counterexample :
    (getAllKeys (fun c _ => some ("PLAIN-" ++ c)) 5
      ⟨some "mp", true, ⟨true, [⟨"id1", "OpenAI", "ct", "development", [], 0,
        none, 0, none, "", [], "#fff", false, ""⟩], 0⟩⟩).map
        (fun r => r.1.map (fun k => k.keyValue)) = .ok ["PLAIN-ct"] ∧
    (getAllKeys (fun c _ => some ("OTHER-" ++ c)) 5
      ⟨some "mp", true, ⟨true, [⟨"id1", "OpenAI", "ct", "development", [], 0,
        none, 0, none, "", [], "#fff", false, ""⟩], 0⟩⟩).map
        (fun r => r.1.map (fun k => k.keyValue)) = .ok ["OTHER-ct"] ∧
    ("OTHER-ct" : String) ≠ "PLAIN-ct" := by
  exact ⟨rfl, rfl, by decide⟩

/-- C4 (amended): the MCP `list_api_keys` does return ciphertext-free
metadata views and performs no decryption — its output is invariant under
arbitrary replacement of every entry's stored `keyValue` — whereas the
extension's `getKeys` path decrypts every entry and returns the plaintext
(see the counterexample). -/
theorem c4_mcp_list_is_ciphertext_free
    (v : MCPVault) (env : Option String) (tags : Option (List String))
    (f : MCPKey → String) :
    listApiKeys
      { v with keys := v.keys.map (fun k => { k with keyValue := f k }) }
      env tags = listApiKeys v env tags := by
  unfold listApiKeys
  rcases env with _ | e <;> rcases tags with _ | ts <;>
    simp [List.filter_map, List.map_map, Function.comp_def] <;>
    split_ifs <;>
    simp [List.filter_map, List.map_map, Function.comp_def]

/-! ## Claim C7 -/

/-- C7: the claim that search matches the query against service_name,
tags, environment and notes fails on the MCP server, which never consults
the environment field: an entry whose environment is `production` and
matches the query `prod` nowhere else is required by the claim but absent
from the MCP result. -/
theorem c7_counterexample :
    searchApiKeys ⟨"h", [⟨"k1", "Payments", "ct", "production", [], none,
      none, 0, none, [], none⟩]⟩ "prod" = [] ∧
    specSearchMatchMCP "prod" ⟨"k1", "Payments", "ct", "production", [],
      none, none, 0, none, [], none⟩ = true := by
  exact ⟨rfl, rfl⟩

/-- C7 (amended): the popup search and the background search handler
match exactly the claimed case-insensitive substring predicate over
service_name, tags, environment and notes (the popup's empty query
returns everything, which agrees with the predicate); only the MCP search
omits the environment field (see the counterexample). -/
theorem c7_popup_and_background_search_match_spec
    (keys : List ExtKey) (query : String) :
    popupSearchKeys keys query = keys.filter (specSearchMatch query) ∧
    (∀ k, extSearchMatch query k = specSearchMatch query k) := by
  have hswap : ∀ a b c d : Bool, (a || b || c || d) = (a || b || d || c) := by
    decide
  constructor
  · unfold popupSearchKeys
    by_cases h : query = ""
    · rw [if_pos h]
      refine (List.filter_eq_self.mpr ?_).symm
      intro k _
      unfold specSearchMatch
      have : strContains (lowerStr k.serviceName) (lowerStr query) = true := by
        rw [h]
        unfold strContains lowerStr
        exact containsSub_nil _
      simp [this]
    · rw [if_neg h]
      rfl
  · intro k
    simp only [extSearchMatch, specSearchMatch]
    exact hswap _ _ _ _

/-! ## Claim C5 -/

/-- C5: the claim that all verifier comparisons during password
verification are constant-time fails on the code: the MCP server compares
the digest with ordinary string equality, and on two stored verifiers of
equal length the comparison takes 1 step when the first byte differs but
3 steps when only the last byte differs. -/
theorem c5_counterexample :
    ("Xbc" : String).length = ("abX" : String).length ∧
    (mcpVerifyT (fun s => s) ⟨"Xbc", []⟩ "abc").1 = false ∧
    (mcpVerifyT (fun s => s) ⟨"abX", []⟩ "abc").1 = false ∧
    (mcpVerifyT (fun s => s) ⟨"Xbc", []⟩ "abc").2 = 1 ∧
    (mcpVerifyT (fun s => s) ⟨"abX", []⟩ "abc").2 = 3 := by
  exact ⟨rfl, rfl, rfl, rfl, rfl⟩

/-- C5 (amended): the extension's `constantTimeEqual` is constant-time in
the loop-iteration cost model — on equal-length inputs its running time
depends only on the length, never on where the inputs differ — and the
instrumented comparison computes the same answer as the source
comparison.  The MCP server's string comparison is not constant-time
(see the counterexample). -/
theorem c5_constantTimeEqual_time_only_depends_on_length
    (a b c d : List Nat) (hab : a.length = b.length)
    (hcd : c.length = d.length) (hac : a.length = c.length) :
    (constantTimeEqualT a b).2 = (constantTimeEqualT c d).2 ∧
    (constantTimeEqualT a b).1 = constantTimeEqual a b := by
  constructor
  · rw [constantTimeEqualT_steps a b hab, constantTimeEqualT_steps c d hcd, hac]
  · unfold constantTimeEqualT constantTimeEqual
    by_cases h : a.length = b.length
    · rw [if_neg (by simp [h]), if_neg (by simp [h])]
      simp only
      rw [foldl_count_fst]
    · rw [if_pos (by simp [h]), if_pos (by simp [h])]

/-- Witness for C5 at concrete inputs. -/
theorem c5_witness :
    (constantTimeEqualT [1, 2] [1, 2]).2 = (constantTimeEqualT [3, 4] [5, 6]).2 ∧
    (constantTimeEqualT [1, 2] [1, 2]).1 = constantTimeEqual [1, 2] [1, 2] :=
  c5_constantTimeEqual_time_only_depends_on_length [1, 2] [1, 2] [3, 4] [5, 6]
    rfl rfl rfl

/-! ## Usage-counter lemmas for claim C6 -/

theorem find?_updateFirst_eq (q : α → Bool) (f : α → α) (l : List α)
    (hq : ∀ a, q (f a) = q a) :
    (updateFirst q f l).find? q = (l.find? q).map f := by
  induction l with
  | nil => rfl
  | cons x t ih =>
    by_cases hx : q x
    · unfold updateFirst
      rw [if_pos hx, List.find?_cons_of_pos _ (by rw [hq]; exact hx),
        List.find?_cons_of_pos _ hx]
      rfl
    · unfold updateFirst
      rw [if_neg hx, List.find?_cons_of_neg _ hx, List.find?_cons_of_neg _ hx]
      exact ih

theorem find?_id_updateFirst_le (q : ExtKey → Bool) (f : ExtKey → ExtKey)
    (hid : ∀ k, (f k).id = k.id)
    (hcnt : ∀ k, k.usageCount ≤ (f k).usageCount)
    (l : List ExtKey) (id : String) (k : ExtKey)
    (h : l.find? (fun x => x.id == id) = some k) :
    ∃ k', (updateFirst q f l).find? (fun x => x.id == id) = some k' ∧
      k.usageCount ≤ k'.usageCount := by
  induction l with
  | nil => simp at h
  | cons x t ih =>
    by_cases hqx : q x
    · unfold updateFirst
      rw [if_pos hqx]
      by_cases hx : (x.id == id) = true
      · rw [@List.find?_cons_of_pos ExtKey (fun y => y.id == id) x t hx] at h
        have hxk : x = k := by injection h
        subst hxk
        rw [@List.find?_cons_of_pos ExtKey (fun y => y.id == id) (f x) t
          (by simpa [hid] using hx)]
        exact ⟨f x, rfl, hcnt x⟩
      · rw [@List.find?_cons_of_neg ExtKey (fun y => y.id == id) x t
          (by simpa using hx)] at h
        rw [@List.find?_cons_of_neg ExtKey (fun y => y.id == id) (f x) t
          (by simpa [hid] using hx)]
        exact ⟨k, h, le_refl _⟩
    · unfold updateFirst
      rw [if_neg hqx]
      by_cases hx : (x.id == id) = true
      · rw [@List.find?_cons_of_pos ExtKey (fun y => y.id == id) x t hx] at h
        have hxk : x = k := by injection h
        subst hxk
        rw [@List.find?_cons_of_pos ExtKey (fun y => y.id == id) x
          (updateFirst q f t) hx]
        exact ⟨x, rfl, le_refl _⟩
      · rw [@List.find?_cons_of_neg ExtKey (fun y => y.id == id) x t
          (by simpa using hx)] at h
        rw [@List.find?_cons_of_neg ExtKey (fun y => y.id == id) x
          (updateFirst q f t) (by simpa using hx)]
        exact ih h

theorem usageOf_keys_eq (st st' : ExtState) (id : String)
    (h : st'.data.keys = st.data.keys) : usageOf st' id = usageOf st id := by
  unfold usageOf
  rw [h]

theorem usageOf_append (st : ExtState) (id : String) (extra : List ExtKey)
    (k : ExtKey) (h : st.data.keys.find? (fun x => x.id == id) = some k) :
    ((st.data.keys ++ extra).find? (fun x => x.id == id)).map
      (fun x => x.usageCount) = some k.usageCount := by
  rw [List.find?_append, h]
  rfl

theorem usageOf_stepOp_mono (dec : String → String → Option String)
    (enc : String → String → String) (now : Nat) (op : ExtOp) (st : ExtState)
    (id : String) (n : Nat) (hsafe : safeOp op = true)
    (h : usageOf st id = some n) :
    ∃ m, usageOf (stepOp dec enc now op st) id = some m ∧ n ≤ m := by
  obtain ⟨k, hk, hkn⟩ := Option.map_eq_some'.mp h
  have husame : ∀ st' : ExtState, st'.data.keys = st.data.keys →
      usageOf st' id = some n := by
    intro st' hkeys
    unfold usageOf at h ⊢
    rw [hkeys]
    exact h
  by_cases hu : st.isUnlocked
  · cases op with
    | getAll =>
      exact ⟨n, husame _ (by simp [stepOp, runOp, getAllKeys, hu, Except.map]),
        le_refl n⟩
    | get id2 =>
      refine ⟨n, ?_, le_refl n⟩
      unfold stepOp runOp getKey
      rcases hfind : st.data.keys.find? (fun x => x.id == id2) with _ | k2
      · simp only [hu, Bool.not_true, Bool.false_eq_true, if_false, hfind,
          Except.map]
        exact h
      · rcases hdec : dec k2.keyValue (st.sessionKey.getD "") with _ | v
        · simp only [hu, Bool.not_true, Bool.false_eq_true, if_false, hfind,
            hdec, Except.map]
          exact h
        · simp only [hu, Bool.not_true, Bool.false_eq_true, if_false, hfind,
            hdec, Except.map]
          exact husame _ rfl
    | search q =>
      exact ⟨n, husame _
        (by simp [stepOp, runOp, searchKeysBg, getAllKeys, hu, Except.map]),
        le_refl n⟩
    | exportAll =>
      exact ⟨n, husame _ (by simp [stepOp, runOp, exportData, hu, Except.map]),
        le_refl n⟩
    | add id2 color kd =>
      refine ⟨n, ?_, le_refl n⟩
      unfold stepOp runOp addKey
      simp only [hu, Bool.not_true, Bool.false_eq_true, if_false, Except.map]
      simp only [usageOf]
      rw [List.find?_append, hk]
      simp [hkn]
    | importAll ks2 =>
      refine ⟨n, ?_, le_refl n⟩
      unfold stepOp runOp importData
      simp only [hu, Bool.not_true, Bool.false_eq_true, if_false, Except.map]
      simp only [usageOf]
      rw [List.find?_append, hk]
      simp [hkn]
    | del id2 => simp [safeOp] at hsafe
    | update id2 u =>
      have hsafe2 : u.usageCount = none ∧ u.id = none := by
        simp only [safeOp, Bool.and_eq_true, Option.isNone_iff_eq_none] at hsafe
        exact hsafe
      unfold stepOp runOp updateKey
      by_cases hall : st.data.keys.all (fun x => !(x.id == id2)) = true
      · simp only [hu, Bool.not_true, Bool.false_eq_true, if_false, hall,
          if_true, Except.map]
        exact ⟨n, h, le_refl n⟩
      · simp only [hu, Bool.not_true, Bool.false_eq_true, if_false, hall,
          if_false]
        obtain ⟨k', hk', hle⟩ := find?_id_updateFirst_le
          (fun x => x.id == id2)
          (fun x => applyUpdates enc (st.sessionKey.getD "") x u)
          (fun x => by simp [applyUpdates, hsafe2.2])
          (fun x => by simp [applyUpdates, hsafe2.1])
          st.data.keys id k hk
        refine ⟨k'.usageCount, ?_, hkn ▸ hle⟩
        simp [usageOf, hk']
    | recordUsage id2 dom =>
      unfold stepOp runOp recordKeyUsage
      by_cases hall : st.data.keys.all (fun x => !(x.id == id2)) = true
      · simp only [hu, Bool.not_true, Bool.false_eq_true, if_false, hall,
          if_true]
        exact ⟨n, h, le_refl n⟩
      · simp only [hu, Bool.not_true, Bool.false_eq_true, if_false, hall,
          if_false]
        obtain ⟨k', hk', hle⟩ := find?_id_updateFirst_le
          (fun x => x.id == id2) (recordUsageUpdate now dom)
          (fun x => by simp [recordUsageUpdate])
          (fun x => by simp [recordUsageUpdate])
          st.data.keys id k hk
        refine ⟨k'.usageCount, ?_, hkn ▸ hle⟩
        simp [usageOf, hk']
  · have hstep : stepOp dec enc now op st = st := by
      cases op <;> simp [stepOp, runOp, getAllKeys, getKey, addKey, updateKey,
        deleteKey, recordKeyUsage, searchKeysBg, exportData, importData, hu,
        Except.map]
    rw [hstep]
    exact ⟨n, h, le_refl n⟩

theorem usageOf_runOps_mono (dec : String → String → Option String)
    (enc : String → String → String) (ops : List (Nat × ExtOp)) (st : ExtState)
    (id : String) (n : Nat) (hsafe : ∀ p ∈ ops, safeOp p.2 = true)
    (h : usageOf st id = some n) :
    ∃ m, usageOf (runOps dec enc ops st) id = some m ∧ n ≤ m := by
  induction ops generalizing st n with
  | nil => exact ⟨n, h, le_refl n⟩
  | cons p t ih =>
    obtain ⟨m1, hm1, hle1⟩ := usageOf_stepOp_mono dec enc p.1 p.2 st id n
      (hsafe p (by simp)) h
    obtain ⟨m2, hm2, hle2⟩ := ih (stepOp dec enc p.1 p.2 st) m1
      (fun q hq => hsafe q (by simp [hq])) hm1
    exact ⟨m2, hm2, le_trans hle1 hle2⟩

/-! ## CSV lemmas for claim C10 -/

theorem splitOnP_ne_nil (p : Char → Bool) (l : List Char) : splitOnP p l ≠ [] := by
  cases l with
  | nil => simp [splitOnP]
  | cons c t =>
    unfold splitOnP
    by_cases hc : p c
    · simp [hc]
    · simp only [hc, if_false]
      rcases h : splitOnP p t with _ | ⟨x, r⟩
      · simp
      · simp

theorem splitOnP_no_sep (p : Char → Bool) (x : List Char)
    (hx : ∀ c ∈ x, p c = false) : splitOnP p x = [x] := by
  induction x with
  | nil => rfl
  | cons c t ih =>
    have hc : p c = false := hx c (by simp)
    unfold splitOnP
    rw [hc]
    simp only [Bool.false_eq_true, if_false]
    rw [ih (fun d hd => hx d (by simp [hd]))]

theorem splitOnP_append_sep (p : Char → Bool) (x rest : List Char) (sep : Char)
    (hx : ∀ c ∈ x, p c = false) (hsep : p sep = true) :
    splitOnP p (x ++ sep :: rest) = x :: splitOnP p rest := by
  induction x with
  | nil => simp [splitOnP, hsep]
  | cons c t ih =>
    have hc : p c = false := hx c (by simp)
    simp only [List.cons_append]
    conv_lhs => unfold splitOnP
    rw [hc]
    simp only [Bool.false_eq_true, if_false]
    rw [ih (fun d hd => hx d (by simp [hd]))]

theorem splitOnP_joinSep (p : Char → Bool) (sep : Char) (hsep : p sep = true)
    (l : List (List Char)) (hl : ∀ x ∈ l, ∀ c ∈ x, p c = false) (hne : l ≠ []) :
    splitOnP p (joinSep [sep] l) = l := by
  induction l with
  | nil => cases hne rfl
  | cons x t ih =>
    cases t with
    | nil => exact splitOnP_no_sep p x (hl x (by simp))
    | cons y r =>
      have hj : joinSep [sep] (x :: y :: r) =
          x ++ sep :: joinSep [sep] (y :: r) := by
        show x ++ [sep] ++ joinSep [sep] (y :: r) = _
        rw [List.append_assoc]
        rfl
      rw [hj, splitOnP_append_sep p x _ sep (hl x (by simp)) hsep]
      rw [ih (fun z hz => hl z (by simp [hz])) (by simp)]

theorem trimC_cons_space (t : List Char) (ht : trimC t = t) :
    trimC (' ' :: t) = t := by
  conv_lhs => unfold trimC
  rw [List.dropWhile_cons]
  simp only [isWSChar]
  norm_num
  exact ht

theorem trimC_ne_nil_of_head (x : Char) (l : List Char)
    (hx : isWSChar x = false) : trimC (x :: l) ≠ [] := by
  unfold trimC
  rw [List.dropWhile_cons]
  rw [hx]
  simp only [Bool.false_eq_true, if_false]
  intro hcon
  have h1 : ((x :: l).reverse).dropWhile isWSChar = [] := by
    cases h : ((x :: l).reverse).dropWhile isWSChar with
    | nil => rfl
    | cons a b => rw [h] at hcon; simp at hcon
  have h2 := List.dropWhile_eq_nil_iff.mp h1
  have := h2 x (by simp)
  rw [hx] at this
  cases this

theorem doubling_id (f : List Char) (hq : ('"' : Char) ∉ f) :
    (f.map (fun c => if c = '"' then ['"', '"'] else [c])).flatten = f := by
  induction f with
  | nil => rfl
  | cons c t ih =>
    have hc : ¬ c = '"' := fun h => hq (by simp [h])
    simp only [List.map_cons, List.flatten_cons, hc, if_false]
    rw [ih (fun h => hq (by simp [h]))]
    rfl

theorem escapeCSV_clean (f : List Char) (hq : f.contains '"' = false) :
    escapeCSV f = '"' :: (f ++ ['"']) := by
  have hqm : ('"' : Char) ∉ f := by simpa using hq
  unfold escapeCSV
  by_cases h0 : f = []
  · subst h0
    rfl
  · rw [if_neg h0]
    by_cases h1 : (f.contains ',' || f.contains '"' || f.contains '\n') = true
    · rw [if_pos h1]
      rw [doubling_id f hqm]
    · rw [if_neg h1]

theorem dropLeadQuote_clean (f : List Char) (hq : ('"' : Char) ∉ f) :
    dropLeadQuote f = f := by
  cases f with
  | nil => rfl
  | cons c t =>
    have hc : ¬ c = '"' := fun h => hq (by simp [h])
    simp [dropLeadQuote, hc]

theorem stripEdgeQuotes_clean (f : List Char) (hq : ('"' : Char) ∉ f) :
    stripEdgeQuotes f = f := by
  simp only [stripEdgeQuotes]
  rw [dropLeadQuote_clean f hq,
    dropLeadQuote_clean f.reverse (by simpa using hq), List.reverse_reverse]

theorem length_dropWhile_le' (p : Char → Bool) (l : List Char) :
    (l.dropWhile p).length ≤ l.length :=
  (List.dropWhile_suffix p).sublist.length_le

theorem length_trimC_le (l : List Char) : (trimC l).length ≤ l.length := by
  unfold trimC
  rw [List.length_reverse]
  calc ((l.dropWhile isWSChar).reverse.dropWhile isWSChar).length
      ≤ (l.dropWhile isWSChar).reverse.length := length_dropWhile_le' _ _
    _ = (l.dropWhile isWSChar).length := List.length_reverse _
    _ ≤ l.length := length_dropWhile_le' _ _

theorem head_not_ws_of_trimC_eq (c : Char) (t : List Char)
    (ht : trimC (c :: t) = c :: t) : isWSChar c = false := by
  by_contra hws
  rw [Bool.not_eq_false] at hws
  have hdw : (c :: t).dropWhile isWSChar = t.dropWhile isWSChar := by
    simp [List.dropWhile_cons, hws]
  have h1 : (trimC (c :: t)).length ≤ t.length := by
    unfold trimC
    rw [hdw, List.length_reverse]
    calc ((t.dropWhile isWSChar).reverse.dropWhile isWSChar).length
        ≤ (t.dropWhile isWSChar).reverse.length := length_dropWhile_le' _ _
      _ = (t.dropWhile isWSChar).length := List.length_reverse _
      _ ≤ t.length := length_dropWhile_le' _ _
  rw [ht] at h1
  simp at h1

theorem last_not_ws_of_trimC_eq (l : List Char) (d : Char)
    (hrev : l.reverse.head? = some d) (ht : trimC l = l) :
    isWSChar d = false := by
  by_contra hws
  rw [Bool.not_eq_false] at hws
  obtain ⟨s, hs⟩ : ∃ s, l.reverse = d :: s := by
    cases hr : l.reverse with
    | nil => rw [hr] at hrev; cases hrev
    | cons a b =>
      rw [hr] at hrev
      have : a = d := by injection hrev
      exact ⟨b, by rw [this]⟩
  have hlen : l.length = s.length + 1 := by
    have h := congrArg List.length hs
    simpa using h
  have h1 : (trimC l).length ≤ s.length := by
    by_cases hdw : l.dropWhile isWSChar = l
    · unfold trimC
      rw [hdw, hs, List.length_reverse]
      calc ((d :: s).dropWhile isWSChar).length
          = (s.dropWhile isWSChar).length := by simp [List.dropWhile_cons, hws]
        _ ≤ s.length := length_dropWhile_le' _ _
    · have hlt : (l.dropWhile isWSChar).length < l.length := by
        rcases Nat.lt_or_ge (l.dropWhile isWSChar).length l.length with h | h
        · exact h
        · have heq : (l.dropWhile isWSChar).length = l.length :=
            le_antisymm (length_dropWhile_le' _ _) h
          exact absurd ((List.dropWhile_suffix isWSChar).eq_of_length heq) hdw
      have : (trimC l).length ≤ (l.dropWhile isWSChar).length := by
        unfold trimC
        rw [List.length_reverse]
        calc ((l.dropWhile isWSChar).reverse.dropWhile isWSChar).length
            ≤ (l.dropWhile isWSChar).reverse.length := length_dropWhile_le' _ _
          _ = (l.dropWhile isWSChar).length := List.length_reverse _
      omega
  rw [ht] at h1
  omega

theorem dropWhile_eq_self_of_head (p : Char → Bool) (l : List Char)
    (h : ∀ c, l.head? = some c → p c = false) : l.dropWhile p = l := by
  cases l with
  | nil => rfl
  | cons c t => simp [List.dropWhile_cons, h c rfl]

theorem trimC_of_edges (l : List Char)
    (hhead : ∀ c, l.head? = some c → isWSChar c = false)
    (hlast : ∀ c, l.reverse.head? = some c → isWSChar c = false) :
    trimC l = l := by
  unfold trimC
  rw [dropWhile_eq_self_of_head _ _ hhead, dropWhile_eq_self_of_head _ _ hlast,
    List.reverse_reverse]

theorem joinCS_ne_nil (tags : List (List Char)) (h : ∀ t ∈ tags, t ≠ [])
    (hne : tags ≠ []) : joinCommaSpace tags ≠ [] := by
  cases tags with
  | nil => cases hne rfl
  | cons t rest =>
    cases rest with
    | nil => exact h t (by simp)
    | cons y r =>
      show t ++ [',', ' '] ++ joinSep [',', ' '] (y :: r) ≠ []
      simp

theorem joinCS_head (tags : List (List Char)) (t0 : List Char)
    (rest : List (List Char)) (h : tags = t0 :: rest) :
    ∃ z, joinCommaSpace tags = t0 ++ z := by
  subst h
  cases rest with
  | nil => exact ⟨[], by simp [joinCommaSpace, joinSep]⟩
  | cons y r => exact ⟨[',', ' '] ++ joinSep [',', ' '] (y :: r), by
      show t0 ++ [',', ' '] ++ joinSep [',', ' '] (y :: r) = _
      rw [List.append_assoc]⟩

theorem joinCS_rev_head (tags : List (List Char)) (h : ∀ t ∈ tags, t ≠ [])
    (hne : tags ≠ []) :
    ∃ tl ∈ tags, (joinCommaSpace tags).reverse.head? = tl.reverse.head? := by
  induction tags with
  | nil => cases hne rfl
  | cons t rest ih =>
    cases rest with
    | nil => exact ⟨t, by simp, rfl⟩
    | cons y r =>
      obtain ⟨tl, htl, he⟩ := ih (fun x hx => h x (by simp [hx])) (by simp)
      refine ⟨tl, by simp [htl], ?_⟩
      show ((t ++ [',', ' '] ++ joinCommaSpace (y :: r)).reverse).head? = _
      rw [List.reverse_append, List.head?_append]
      have hJne : joinCommaSpace (y :: r) ≠ [] :=
        joinCS_ne_nil _ (fun x hx => h x (by simp [hx])) (by simp)
      have hrevne : (joinCommaSpace (y :: r)).reverse ≠ [] := by
        simpa using hJne
      rcases hh : (joinCommaSpace (y :: r)).reverse with _ | ⟨a, b⟩
      · cases hrevne hh
      · rw [hh] at he
        simp [he.symm]

theorem joinCS_trim_inv (tags : List (List Char))
    (h : ∀ t ∈ tags, t ≠ [] ∧ trimC t = t) :
    trimC (joinCommaSpace tags) = joinCommaSpace tags := by
  cases htags : tags with
  | nil => rfl
  | cons t0 rest =>
    apply trimC_of_edges
    · intro c hc
      obtain ⟨z, hz⟩ := joinCS_head (t0 :: rest) t0 rest rfl
      rcases ht0 : t0 with _ | ⟨c0, t0t⟩
      · exact absurd ht0 (h t0 (by simp [htags])).1
      · rw [hz, ht0] at hc
        simp only [List.cons_append, List.head?_cons, Option.some.injEq] at hc
        subst hc
        exact head_not_ws_of_trimC_eq c0 t0t
          (by rw [← ht0]; exact (h t0 (by simp [htags])).2)
    · intro c hc
      obtain ⟨tl, htl, he⟩ := joinCS_rev_head (t0 :: rest)
        (fun x hx => (h x (by rw [htags]; exact hx)).1) (by simp)
      rw [he] at hc
      exact last_not_ws_of_trimC_eq tl c hc (h tl (by rw [htags]; exact htl)).2

/-! ### Parser lemmas -/

theorem parseCSVAux_values_append (input : List Char) :
    ∀ (v w : List (List Char)) (cur : List Char) (q : Bool),
      parseCSVAux input (v ++ w) cur q = v ++ parseCSVAux input w cur q := by
  induction input with
  | nil => intro v w cur q; simp [parseCSVAux]
  | cons c rest ih =>
    intro v w cur q
    unfold parseCSVAux
    by_cases hc : c = '"'
    · simp only [hc, if_true, if_pos]
      exact ih v w cur (!q)
    · simp only [hc, if_false, if_neg]
      by_cases hcm : (c = ',' && !q) = true
      · simp only [hcm, if_true, if_pos]
        rw [List.append_assoc]
        exact ih v (w ++ [trimC cur]) [] q
      · simp only [hcm, Bool.false_eq_true, if_false, if_neg]
        exact ih v w (cur ++ [c]) q

theorem parseCSVAux_inQuotes (f : List Char) :
    ∀ (tl : List Char) (values : List (List Char)) (cur : List Char),
      ('"' : Char) ∉ f →
      parseCSVAux (f ++ tl) values cur true =
        parseCSVAux tl values (cur ++ f) true := by
  induction f with
  | nil => intro tl values cur _; simp
  | cons c t ih =>
    intro tl values cur hf
    have hc : ¬ c = '"' := fun h => hf (by simp [h])
    simp only [List.cons_append]
    conv_lhs => unfold parseCSVAux
    simp only [hc, if_false, Bool.not_true, Bool.and_false, Bool.false_eq_true]
    rw [ih tl values (cur ++ [c]) (fun h => hf (by simp [h]))]
    rw [List.append_assoc]
    rfl

theorem parseCSVAux_quoted (f rest : List Char) (values : List (List Char))
    (hf : ('"' : Char) ∉ f) :
    parseCSVAux ('"' :: (f ++ '"' :: ',' :: rest)) values [] false =
      parseCSVAux rest (values ++ [trimC f]) [] false := by
  conv_lhs => unfold parseCSVAux
  rw [if_pos rfl]
  simp only [Bool.not_false]
  rw [parseCSVAux_inQuotes f _ values [] hf]
  conv_lhs => unfold parseCSVAux
  rw [if_pos rfl]
  simp only [Bool.not_true]
  conv_lhs => unfold parseCSVAux
  rw [if_neg (by decide)]
  rw [if_pos (by decide)]
  simp

/-! ### Membership lemmas -/

theorem mem_joinSep (sep : List Char) (c : Char) :
    ∀ (l : List (List Char)), c ∈ joinSep sep l →
      c ∈ sep ∨ ∃ x ∈ l, c ∈ x := by
  intro l
  induction l with
  | nil => intro h; simp [joinSep] at h
  | cons x t ih =>
    intro h
    cases t with
    | nil => exact Or.inr ⟨x, by simp, by simpa [joinSep] using h⟩
    | cons y r =>
      have h' : c ∈ x ++ sep ++ joinSep sep (y :: r) := h
      rcases List.mem_append.mp h' with h1 | h2
      · rcases List.mem_append.mp h1 with ha | hb
        · exact Or.inr ⟨x, by simp, ha⟩
        · exact Or.inl hb
      · rcases ih h2 with hs | ⟨z, hz, hcz⟩
        · exact Or.inl hs
        · exact Or.inr ⟨z, by simp [hz], hcz⟩

theorem mem_escapeCSV (f : List Char) (c : Char) (h : c ∈ escapeCSV f) :
    c = '"' ∨ c ∈ f := by
  unfold escapeCSV at h
  by_cases h0 : f = []
  · rw [if_pos h0] at h
    simp at h
    exact Or.inl h
  · rw [if_neg h0] at h
    by_cases h1 : (f.contains ',' || f.contains '"' || f.contains '\n') = true
    · rw [if_pos h1] at h
      rcases List.mem_cons.mp h with rfl | h2
      · exact Or.inl rfl
      · rcases List.mem_append.mp h2 with h3 | h4
        · rcases List.mem_flatten.mp h3 with ⟨piece, hp, hcp⟩
          rcases List.mem_map.mp hp with ⟨d, hd, hpd⟩
          by_cases hdq : d = '"'
          · rw [← hpd] at hcp
            simp [hdq] at hcp
            exact Or.inl hcp
          · rw [← hpd] at hcp
            simp [hdq] at hcp
            exact Or.inr (hcp ▸ hd)
        · simp at h4
          exact Or.inl h4
    · rw [if_neg h1] at h
      rcases List.mem_cons.mp h with rfl | h2
      · exact Or.inl rfl
      · rcases List.mem_append.mp h2 with h3 | h4
        · exact Or.inr h3
        · simp at h4
          exact Or.inl h4

/-! ### Tag round-trip -/

theorem splitOnP_cons_nosep (p : Char → Bool) (c : Char) (l : List Char)
    (hc : p c = false) :
    splitOnP p (c :: l) = match splitOnP p l with
      | [] => [[c]]
      | h :: r => (c :: h) :: r := by
  conv_lhs => unfold splitOnP
  rw [hc]
  simp

theorem splitCS_join (rest : List (List Char)) :
    ∀ t0 : List Char,
      (∀ t ∈ t0 :: rest, ∀ c ∈ t, (fun c => c = ',' || c = ';') c = false) →
      splitOnP (fun c => c = ',' || c = ';') (joinCommaSpace (t0 :: rest)) =
        t0 :: rest.map (fun t => ' ' :: t) := by
  induction rest with
  | nil =>
    intro t0 h
    exact splitOnP_no_sep _ t0 (h t0 (by simp))
  | cons y r ih =>
    intro t0 h
    have hj : joinCommaSpace (t0 :: y :: r) =
        t0 ++ ',' :: ' ' :: joinCommaSpace (y :: r) := by
      show t0 ++ [',', ' '] ++ joinSep [',', ' '] (y :: r) = _
      rw [List.append_assoc]
      rfl
    rw [hj, splitOnP_append_sep _ t0 _ ',' (h t0 (by simp)) (by decide),
      splitOnP_cons_nosep _ ' ' _ (by decide),
      ih y (fun t ht c hc => h t (by simp at ht ⊢; tauto) c hc)]
    rfl

theorem extractTags_join (tags : List (List Char))
    (htags : ∀ t ∈ tags, t ≠ [] ∧ trimC t = t ∧ t.contains ',' = false ∧
      t.contains ';' = false) :
    extractTags (joinCommaSpace tags) = tags := by
  cases tags with
  | nil => rfl
  | cons t0 rest =>
    have hne : joinCommaSpace (t0 :: rest) ≠ [] :=
      joinCS_ne_nil _ (fun t ht => (htags t ht).1) (by simp)
    unfold extractTags
    rw [if_neg hne]
    have hsepfree : ∀ t ∈ t0 :: rest, ∀ c ∈ t,
        (fun c => c = ',' || c = ';') c = false := by
      intro t ht c hc
      have h1 : c ∉ [','] ∨ True := Or.inr trivial
      have hcm : ('.' : Char) = '.' := rfl
      have hnc : ¬ c = ',' := by
        intro hcc
        subst hcc
        have := (htags t ht).2.2.1
        simp at this
        exact this hc
      have hns : ¬ c = ';' := by
        intro hcc
        subst hcc
        have := (htags t ht).2.2.2
        simp at this
        exact this hc
      simp [hnc, hns]
    rw [splitCS_join rest t0 hsepfree]
    simp only [List.map_cons]
    rw [(htags t0 (by simp)).2.1]
    have hmap : (rest.map (fun t => ' ' :: t)).map trimC = rest := by
      rw [List.map_map]
      have : ∀ t ∈ rest, (trimC ∘ fun t => ' ' :: t) t = id t := by
        intro t ht
        show trimC (' ' :: t) = t
        exact trimC_cons_space t (htags t (by simp [ht])).2.1
      rw [List.map_congr_left this, List.map_id]
    rw [hmap]
    apply List.filter_eq_self.mpr
    intro a ha
    rcases List.mem_cons.mp ha with rfl | har
    · simpa using (htags a (by simp)).1
    · simpa using (htags a (by simp [har])).1

/-! ### Row round-trip -/

theorem headerMapping :
    detectCSVMapping ((splitOnP (fun c => c = ',') csvHeaderRow).map
      (fun h => lowerL ((trimC h).filter (fun c => !(c = '"'))))) =
    ⟨0, 1, 2, 3, 4⟩ := by decide

theorem csvRow_shape (iso : Nat → List Char) (k : CsvEntry)
    (h0 : ('"' : Char) ∉ k.serviceName) (h1 : ('"' : Char) ∉ k.keyValue)
    (h2 : ('"' : Char) ∉ k.environment)
    (h3 : ('"' : Char) ∉ joinCommaSpace k.tags)
    (h4 : ('"' : Char) ∉ k.notes) :
    csvRow iso k =
      '"' :: (k.serviceName ++ '"' :: ',' :: ('"' :: (k.keyValue ++ '"' :: ',' ::
      ('"' :: (k.environment ++ '"' :: ',' :: ('"' ::
      (joinCommaSpace k.tags ++ '"' :: ',' :: ('"' :: (k.notes ++ '"' :: ',' ::
      (escapeCSV (joinCommaSpace k.domains) ++ ',' ::
        iso k.createdAt)))))))))) := by
  unfold csvRow
  rw [escapeCSV_clean _ (by simpa using h0), escapeCSV_clean _ (by simpa using h1),
    escapeCSV_clean _ (by simpa using h2), escapeCSV_clean _ (by simpa using h3),
    escapeCSV_clean _ (by simpa using h4)]
  simp only [joinSep]
  simp [List.append_assoc]

theorem importRow_export (iso : Nat → List Char) (k : CsvEntry)
    (hk : GoodEntry k) :
    importRow ⟨0, 1, 2, 3, 4⟩ (csvRow iso k) = some (toImported k) := by
  obtain ⟨hsn, hkv, hkvne, henv, hnotes, htags, hdoms⟩ := hk
  have hsnq : ('"' : Char) ∉ k.serviceName := by simpa using hsn.1
  have hkvq : ('"' : Char) ∉ k.keyValue := by simpa using hkv.1
  have henvq : ('"' : Char) ∉ k.environment := by simpa using henv.1
  have hnotesq : ('"' : Char) ∉ k.notes := by simpa using hnotes.1
  have htagsq : ('"' : Char) ∉ joinCommaSpace k.tags := by
    intro hmem
    rcases mem_joinSep [',', ' '] '"' k.tags hmem with hs | ⟨x, hx, hcx⟩
    · simp at hs
    · have := (htags x hx).1.1
      simp at this
      exact this hcx
  have hrow := csvRow_shape iso k hsnq hkvq henvq htagsq hnotesq
  have htrim : ¬ trimC (csvRow iso k) = [] := by
    rw [hrow]
    exact trimC_ne_nil_of_head '"' _ (by decide)
  have hvals : parseCSVLine (csvRow iso k) =
      [k.serviceName, k.keyValue, k.environment, joinCommaSpace k.tags,
        k.notes] ++
      (parseCSVAux (escapeCSV (joinCommaSpace k.domains) ++ ',' ::
        iso k.createdAt) [] [] false).map stripEdgeQuotes := by
    unfold parseCSVLine
    rw [hrow, parseCSVAux_quoted _ _ _ hsnq, parseCSVAux_quoted _ _ _ hkvq,
      parseCSVAux_quoted _ _ _ henvq, parseCSVAux_quoted _ _ _ htagsq,
      parseCSVAux_quoted _ _ _ hnotesq]
    rw [show ([] ++ [trimC k.serviceName] ++ [trimC k.keyValue] ++
        [trimC k.environment] ++ [trimC (joinCommaSpace k.tags)] ++
        [trimC k.notes]) =
      [trimC k.serviceName, trimC k.keyValue, trimC k.environment,
        trimC (joinCommaSpace k.tags), trimC k.notes] ++ [] from by simp]
    rw [parseCSVAux_values_append, List.map_append]
    congr 1
    rw [hsn.2.2, hkv.2.2, henv.2.2, hnotes.2.2,
      joinCS_trim_inv k.tags (fun t ht => ⟨(htags t ht).2.1, (htags t ht).1.2.2⟩)]
    simp only [List.map_cons, List.map_nil]
    rw [stripEdgeQuotes_clean _ hsnq, stripEdgeQuotes_clean _ hkvq,
      stripEdgeQuotes_clean _ henvq, stripEdgeQuotes_clean _ htagsq,
      stripEdgeQuotes_clean _ hnotesq]
  unfold importRow
  rw [if_neg htrim]
  simp only [hvals]
  have hkv1 : jsIndex ([k.serviceName, k.keyValue, k.environment,
      joinCommaSpace k.tags, k.notes] ++
      (parseCSVAux (escapeCSV (joinCommaSpace k.domains) ++ ',' ::
        iso k.createdAt) [] [] false).map stripEdgeQuotes) 1 = k.keyValue := by
    simp [jsIndex]
  rw [if_pos (by rw [hkv1]; simp [hkvne])]
  have htg : extractTags (joinCommaSpace k.tags) = k.tags :=
    extractTags_join k.tags
      (fun t ht => ⟨(htags t ht).2.1, (htags t ht).1.2.2,
        (htags t ht).2.2.1, (htags t ht).2.2.2⟩)
  unfold toImported
  simp [jsIndex, htg, List.getD_cons_zero, List.getD_cons_succ]

theorem csvRow_no_nl (iso : Nat → List Char) (k : CsvEntry) (hk : GoodEntry k)
    (hiso : ('\n' : Char) ∉ iso k.createdAt) :
    ('\n' : Char) ∉ csvRow iso k := by
  obtain ⟨hsn, hkv, hkvne, henv, hnotes, htags, hdoms⟩ := hk
  intro hmem
  unfold csvRow at hmem
  rcases mem_joinSep [','] '\n' _ hmem with hs | ⟨x, hx, hcx⟩
  · simp at hs
  · simp only [List.mem_cons, List.not_mem_nil, or_false] at hx
    rcases hx with rfl | rfl | rfl | rfl | rfl | rfl | rfl
    · rcases mem_escapeCSV _ _ hcx with h | h
      · exact absurd h (by decide)
      · have := hsn.2.1
        simp at this
        exact this h
    · rcases mem_escapeCSV _ _ hcx with h | h
      · exact absurd h (by decide)
      · have := hkv.2.1
        simp at this
        exact this h
    · rcases mem_escapeCSV _ _ hcx with h | h
      · exact absurd h (by decide)
      · have := henv.2.1
        simp at this
        exact this h
    · rcases mem_escapeCSV _ _ hcx with h | h
      · exact absurd h (by decide)
      · rcases mem_joinSep [',', ' '] '\n' _ h with hs | ⟨t, ht, hct⟩
        · simp at hs
        · have := (htags t ht).1.2.1
          simp at this
          exact this hct
    · rcases mem_escapeCSV _ _ hcx with h | h
      · exact absurd h (by decide)
      · have := hnotes.2.1
        simp at this
        exact this h
    · rcases mem_escapeCSV _ _ hcx with h | h
      · exact absurd h (by decide)
      · rcases mem_joinSep [',', ' '] '\n' _ h with hs | ⟨d, hd, hcd⟩
        · simp at hs
        · have := hdoms d hd
          simp at this
          exact this hcd
    · exact hiso hcx

theorem rows_import (iso : Nat → List Char) (keys : List CsvEntry)
    (hgood : ∀ k ∈ keys, GoodEntry k) :
    (keys.map (csvRow iso)).filterMap (importRow ⟨0, 1, 2, 3, 4⟩) =
      keys.map toImported := by
  induction keys with
  | nil => rfl
  | cons k ks ih =>
    simp only [List.map_cons, List.filterMap_cons,
      importRow_export iso k (hgood k (by simp))]
    rw [ih (fun x hx => hgood x (by simp [hx]))]

/-! ## Claim C10 -/

/-- C10: the round-trip claim fails as stated on two corners its
preconditions do not exclude — an empty-string tag (no quotes, no
newlines, no whitespace, no separators) is dropped by `extractTags` on
import, and a domain containing a newline (here together with a comma)
splits one exported row into two lines, and the fragment parses as a
spurious second entry. -/
theorem c10_counterexample :
    importCSV (exportToCSV (fun _ => "D".data)
      [⟨"S".data, "K".data, "E".data, [[]], "N".data, [], 0⟩]) =
      [⟨"S".data, "K".data, "E".data, [], "N".data⟩] ∧
    ([[]] : List (List Char)) ≠ [] ∧
    (importCSV (exportToCSV (fun _ => "D".data)
      [⟨"S".data, "K".data, "E".data, [], "N".data, ["a\nb,c".data], 0⟩])).length
      = 2 := by
  refine ⟨by decide, by decide, by decide⟩

/-- C10 (amended): for every list of entries whose serviceName, keyValue,
environment, tags and notes are free of double quotes, newlines and
leading or trailing whitespace, whose tags are non-empty and contain no
commas or semicolons, whose keyValue is non-empty, and whose domains
contain no newlines, `importCSV (exportToCSV entries)` recovers exactly
the serviceName, keyValue, environment, tags and notes of every entry, in
order (the date column may be rendered by any newline-free printer). -/
theorem c10_export_import_round_trip (iso : Nat → List Char)
    (keys : List CsvEntry)
    (hiso : ∀ n, ('\n' : Char) ∉ iso n)
    (hgood : ∀ k ∈ keys, GoodEntry k) :
    importCSV (exportToCSV iso keys) = keys.map toImported := by
  have hsplit : splitOnP (fun c => c = '\n') (exportToCSV iso keys) =
      csvHeaderRow :: keys.map (csvRow iso) := by
    unfold exportToCSV
    refine splitOnP_joinSep _ '\n' (by decide) _ ?_ (by simp)
    intro x hx c hc
    rcases List.mem_cons.mp hx with rfl | hxr
    · by_contra hcc
      rw [Bool.not_eq_false] at hcc
      have hceq : c = '\n' := of_decide_eq_true hcc
      subst hceq
      exact (by decide : ('\n' : Char) ∉ csvHeaderRow) hc
    · rcases List.mem_map.mp hxr with ⟨k, hkmem, rfl⟩
      by_contra hcc
      rw [Bool.not_eq_false] at hcc
      have hceq : c = '\n' := of_decide_eq_true hcc
      subst hceq
      exact csvRow_no_nl iso k (hgood k hkmem) (hiso _) hc
  unfold importCSV
  rw [hsplit]
  simp only
  rw [headerMapping]
  exact rows_import iso keys hgood

/-- Witness for C10 at a concrete input. -/
theorem c10_witness :
    importCSV (exportToCSV (fun _ => "2026-01-01".data)
      [⟨"Stripe".data, "sk-123".data, "production".data, ["ai".data],
        "note".data, ["x.com".data], 7⟩]) =
      [⟨"Stripe".data, "sk-123".data, "production".data, ["ai".data],
        "note".data⟩] := by
  have h := c10_export_import_round_trip (fun _ => "2026-01-01".data)
    [⟨"Stripe".data, "sk-123".data, "production".data, ["ai".data],
      "note".data, ["x.com".data], 7⟩]
    (fun _ => (by decide : ('\n' : Char) ∉ "2026-01-01".data)) (by decide)
  simpa [toImported] using h

/-! ## Claim C6 -/

/-- C6: the claim that `usage_count` never decreases over every sequence
of vault operations fails on the code: `update(id, partial)` spreads the
partial over the stored record, so a partial carrying `usageCount` can
overwrite a counter of 5 with 0. -/
theorem c6_counterexample :
    (updateKey (fun s _ => s) 9
        ⟨some "mp", true, ⟨true,
          [⟨"a", "S", "c", "production", [], 0, none, 5, none, "", [], "",
            false, ""⟩], 0⟩⟩
        "a" { noUpdates with usageCount := some 0 }).map
      (fun st' => usageOf st' "a") = .ok (some 0) ∧
    usageOf ⟨some "mp", true, ⟨true,
      [⟨"a", "S", "c", "production", [], 0, none, 5, none, "", [], "",
        false, ""⟩], 0⟩⟩ "a" = some 5 ∧ (0 : Nat) < 5 := by
  refine ⟨rfl, rfl, by decide⟩

/-- C6 (amended): provided no operation deletes the entry and update
partials carry neither `usageCount` nor `id`, the entry's `usage_count`
is non-decreasing across every sequence of operations; each successful
`record_usage` on an existing entry of the unlocked vault increments the
counter by exactly one, sets `lastUsed` to the current time, and unions a
non-empty domain into `domains`; and the MCP `get_api_key` retrieval
increments the retrieved entry's counter by exactly one and stamps
`lastUsed`.  An update partial that carries `usageCount` can overwrite
the counter arbitrarily (see the counterexample). -/
theorem c6_usage_monotone_and_record_usage
    (dec : String → String → Option String) (enc : String → String → String)
    (ops : List (Nat × ExtOp)) (st : ExtState) (id : String) (n : Nat)
    (now : Nat) (domain : String) (k : ExtKey)
    (prim : String → String → String → String) (ts : String)
    (mst : MCPState) (v : MCPVault) (sk : String) (sn env : String)
    (mk : MCPKey)
    (hsafe : ∀ p ∈ ops, safeOp p.2 = true)
    (husage : usageOf st id = some n)
    (hunlocked : st.isUnlocked = true)
    (hkey : keyOf st id = some k)
    (hmv : mst.vault = some v) (hmsk : mst.sessionKey = some sk)
    (hmk : v.keys.find? (mcpKeyMatch sn env) = some mk) :
    (∃ m, usageOf (runOps dec enc ops st) id = some m ∧ n ≤ m) ∧
    (∃ st', recordKeyUsage now st id domain = .ok st' ∧
      keyOf st' id = some (recordUsageUpdate now domain k) ∧
      (recordUsageUpdate now domain k).usageCount = k.usageCount + 1 ∧
      (recordUsageUpdate now domain k).lastUsed = some now ∧
      (domain ≠ "" → domain ∈ (recordUsageUpdate now domain k).domains)) ∧
    (∃ v', (getApiKey prim ts mst sn env).vaultWrite = some v' ∧
      v'.keys.find? (mcpKeyMatch sn env) =
        some { mk with lastUsed := some ts, usageCount := mk.usageCount + 1 }) := by
  refine ⟨usageOf_runOps_mono dec enc ops st id n hsafe husage, ?_, ?_⟩
  · have hfind : st.data.keys.find? (fun x => x.id == id) = some k := hkey
    have hidk : (k.id == id) = true := by
      have := List.find?_some hfind
      simpa using this
    have hall : st.data.keys.all (fun x => !(x.id == id)) = false := by
      apply List.all_eq_false.mpr
      exact ⟨k, List.mem_of_find?_eq_some hfind, by simp [hidk]⟩
    refine ⟨{ st with data := { st.data with
        keys := updateFirst (fun x => x.id == id)
          (recordUsageUpdate now domain) st.data.keys,
        lastActivity := now } }, ?_, ?_, rfl, rfl, ?_⟩
    · unfold recordKeyUsage
      simp [hunlocked, hall]
    · unfold keyOf
      simp only
      rw [find?_updateFirst_eq _ _ _ (fun a => by simp [recordUsageUpdate]),
        hfind]
      rfl
    · intro hdom
      unfold recordUsageUpdate
      simp only
      by_cases hc : k.domains.contains domain
      · have hmem : domain ∈ k.domains := by simpa using hc
        simp [hc, hmem]
      · have hnmem : domain ∉ k.domains := by simpa using hc
        simp [hdom, hc, hnmem]
  · simp only [getApiKey, hmv, hmsk, hmk]
    refine ⟨_, rfl, ?_⟩
    rw [find?_updateFirst_eq _ _ _ (fun a => by simp [mcpKeyMatch]), hmk]
    rfl

/-- Witness for C6 at concrete inputs. -/
theorem c6_witness :
    (∃ m, usageOf (runOps (fun c _ => some c) (fun s _ => s)
      [(2, ExtOp.getAll)]
      ⟨some "mp", true, ⟨true,
        [⟨"a", "S", "c", "production", [], 0, none, 5, none, "", [], "",
          false, ""⟩], 0⟩⟩) "a" = some m ∧ 5 ≤ m) ∧
    (∃ st', recordKeyUsage 9
        ⟨some "mp", true, ⟨true,
          [⟨"a", "S", "c", "production", [], 0, none, 5, none, "", [], "",
            false, ""⟩], 0⟩⟩ "a" "d" = .ok st' ∧
      keyOf st' "a" = some (recordUsageUpdate 9 "d"
        ⟨"a", "S", "c", "production", [], 0, none, 5, none, "", [], "",
          false, ""⟩) ∧
      (recordUsageUpdate 9 "d"
        ⟨"a", "S", "c", "production", [], 0, none, 5, none, "", [], "",
          false, ""⟩).usageCount =
        (⟨"a", "S", "c", "production", [], 0, none, 5, none, "", [], "",
          false, ""⟩ : ExtKey).usageCount + 1 ∧
      (recordUsageUpdate 9 "d"
        ⟨"a", "S", "c", "production", [], 0, none, 5, none, "", [], "",
          false, ""⟩).lastUsed = some 9 ∧
      ("d" ≠ "" → "d" ∈ (recordUsageUpdate 9 "d"
        ⟨"a", "S", "c", "production", [], 0, none, 5, none, "", [], "",
          false, ""⟩).domains)) ∧
    (∃ v', (getApiKey (fun _ _ e => e) "T"
        ⟨some ⟨"h", [⟨"i", "Svc", "ct", "development", [], none, none, 3,
          none, [], none⟩]⟩, some "sk"⟩ "Svc" "development").vaultWrite =
        some v' ∧
      v'.keys.find? (mcpKeyMatch "Svc" "development") =
        some { (⟨"i", "Svc", "ct", "development", [], none, none, 3, none,
            [], none⟩ : MCPKey) with
          lastUsed := some "T"
          usageCount := (⟨"i", "Svc", "ct", "development", [], none, none, 3,
            none, [], none⟩ : MCPKey).usageCount + 1 }) :=
  c6_usage_monotone_and_record_usage (fun c _ => some c) (fun s _ => s)
    [(2, ExtOp.getAll)]
    ⟨some "mp", true, ⟨true,
      [⟨"a", "S", "c", "production", [], 0, none, 5, none, "", [], "",
        false, ""⟩], 0⟩⟩ "a" 5 9 "d"
    ⟨"a", "S", "c", "production", [], 0, none, 5, none, "", [], "",
      false, ""⟩
    (fun _ _ e => e) "T"
    ⟨some ⟨"h", [⟨"i", "Svc", "ct", "development", [], none, none, 3, none,
      [], none⟩]⟩, some "sk"⟩
    ⟨"h", [⟨"i", "Svc", "ct", "development", [], none, none, 3, none, [],
      none⟩]⟩ "sk" "Svc" "development"
    ⟨"i", "Svc", "ct", "development", [], none, none, 3, none, [], none⟩
    (by decide) rfl rfl rfl rfl rfl rfl

/-! ## Sorting lemmas for claim C8 -/

theorem jsSortInsert_perm (cmp : α → α → Int) (a : α) (l : List α) :
    List.Perm (jsSortInsert cmp a l) (a :: l) := by
  induction l with
  | nil => exact List.Perm.refl _
  | cons b t ih =>
    unfold jsSortInsert
    by_cases h : cmp b a ≤ 0
    · rw [if_pos h]
      exact List.Perm.trans (List.Perm.cons b ih) (List.Perm.swap a b t)
    · rw [if_neg h]

theorem jsSortAux_perm (cmp : α → α → Int) (l : List α) :
    ∀ acc, List.Perm (l.foldl (fun acc a => jsSortInsert cmp a acc) acc)
      (acc ++ l) := by
  induction l with
  | nil => intro acc; simp
  | cons a t ih =>
    intro acc
    simp only [List.foldl_cons]
    have h1 := ih (jsSortInsert cmp a acc)
    have h2 : List.Perm (jsSortInsert cmp a acc ++ t) ((a :: acc) ++ t) :=
      (jsSortInsert_perm cmp a acc).append_right t
    have h3 : List.Perm ((a :: acc) ++ t) (acc ++ a :: t) := List.perm_middle.symm
    exact (h1.trans h2).trans h3

theorem jsSort_perm (cmp : α → α → Int) (l : List α) :
    List.Perm (jsSort cmp l) l := by
  simpa using jsSortAux_perm cmp l []

theorem mem_jsSortInsert {cmp : α → α → Int} {a y : α} {l : List α}
    (h : y ∈ jsSortInsert cmp a l) : y = a ∨ y ∈ l := by
  have := (jsSortInsert_perm cmp a l).mem_iff.mp h
  simpa using this

theorem pairwise_jsSortInsert (cmp : α → α → Int)
    (htot : ∀ a b, cmp a b ≤ 0 ∨ cmp b a ≤ 0)
    (htrans : ∀ a b c, cmp a b ≤ 0 → cmp b c ≤ 0 → cmp a c ≤ 0)
    (a : α) (l : List α)
    (hl : l.Pairwise (fun x y => cmp x y ≤ 0)) :
    (jsSortInsert cmp a l).Pairwise (fun x y => cmp x y ≤ 0) := by
  induction l with
  | nil => simp [jsSortInsert]
  | cons b t ih =>
    rcases List.pairwise_cons.mp hl with ⟨hb, ht⟩
    unfold jsSortInsert
    by_cases h : cmp b a ≤ 0
    · rw [if_pos h]
      refine List.pairwise_cons.mpr ⟨?_, ih ht⟩
      intro y hy
      rcases mem_jsSortInsert hy with rfl | hyt
      · exact h
      · exact hb y hyt
    · rw [if_neg h]
      have hab : cmp a b ≤ 0 := (htot a b).resolve_right h
      refine List.pairwise_cons.mpr ⟨?_, hl⟩
      intro y hy
      rcases List.mem_cons.mp hy with rfl | hyt
      · exact hab
      · exact htrans a b y hab (hb y hyt)

theorem pairwise_jsSort (cmp : α → α → Int)
    (htot : ∀ a b, cmp a b ≤ 0 ∨ cmp b a ≤ 0)
    (htrans : ∀ a b c, cmp a b ≤ 0 → cmp b c ≤ 0 → cmp a c ≤ 0)
    (l : List α) :
    (jsSort cmp l).Pairwise (fun x y => cmp x y ≤ 0) := by
  have haux : ∀ (t acc : List α), acc.Pairwise (fun x y => cmp x y ≤ 0) →
      (t.foldl (fun acc a => jsSortInsert cmp a acc) acc).Pairwise
        (fun x y => cmp x y ≤ 0) := by
    intro t
    induction t with
    | nil => intro acc hacc; exact hacc
    | cons a r ih =>
      intro acc hacc
      exact ih _ (pairwise_jsSortInsert cmp htot htrans a acc hacc)
  exact haux l [] List.Pairwise.nil

theorem cmpKeys_total (a b : ExtKey) : cmpKeys a b ≤ 0 ∨ cmpKeys b a ≤ 0 := by
  unfold cmpKeys
  cases ha : a.favorite <;> cases hb : b.favorite <;> simp [ha, hb] <;> omega

theorem cmpKeys_trans (a b c : ExtKey) (h1 : cmpKeys a b ≤ 0)
    (h2 : cmpKeys b c ≤ 0) : cmpKeys a c ≤ 0 := by
  unfold cmpKeys at h1 h2 ⊢
  cases ha : a.favorite <;> cases hb : b.favorite <;> cases hc : c.favorite <;>
    simp [ha, hb, hc] at h1 h2 ⊢ <;> omega

/-! ## Claim C8 -/

/-- C8: the claimed ordering fails on the code — two non-favorite entries
with null `last_used_at` compare equal in the code's comparator, so the
code's stable sort keeps them in insertion order, while the claim demands
`created_at` descending: the entry created at 2 must precede the entry
created at 1, but the default list returns them the other way. -/
theorem c8_counterexample :
    (getAllKeys (fun c _ => some c) 9
      ⟨some "mp", true, ⟨true,
        [⟨"a", "S1", "c1", "production", [], 1, none, 0, none, "", [], "", false, ""⟩,
         ⟨"b", "S2", "c2", "production", [], 2, none, 0, none, "", [], "", false, ""⟩],
        0⟩⟩).map (fun r => r.1.map (fun k => k.id)) = .ok ["a", "b"] ∧
    (specSort
      [⟨"a", "S1", "c1", "production", [], 1, none, 0, none, "", [], "", false, ""⟩,
       ⟨"b", "S2", "c2", "production", [], 2, none, 0, none, "", [], "", false, ""⟩]).map
      (fun k => k.id) = ["b", "a"] ∧
    (["a", "b"] : List String) ≠ ["b", "a"] := by
  exact ⟨rfl, rfl, by decide⟩

/-- C8 (amended): the extension's default list is a permutation of the
decrypted entries sorted by the code's comparator only — favorites first,
then by `lastUsed` with null read as 0, descending; equal keys (in
particular all never-used non-favorites) keep their stored order, and no
`created_at` or `id` tie-break exists. -/
theorem c8_default_list_sorted_by_code_comparator
    (dec : String → String → Option String) (now : Nat) (st : ExtState)
    (ks : List ExtKey) (st' : ExtState)
    (h : getAllKeys dec now st = .ok (ks, st')) :
    ks.Pairwise (fun x y => cmpKeys x y ≤ 0) ∧
    List.Perm ks (decryptAllKeys dec (st.sessionKey.getD "") st.data.keys) := by
  unfold getAllKeys at h
  by_cases hu : st.isUnlocked
  · simp only [hu, Bool.not_true, Bool.false_eq_true, if_false, Except.ok.injEq,
      Prod.mk.injEq] at h
    rcases h with ⟨hks, _⟩
    subst hks
    exact ⟨pairwise_jsSort cmpKeys cmpKeys_total cmpKeys_trans _,
      jsSort_perm cmpKeys _⟩
  · simp only [Bool.not_eq_true] at hu
    simp [hu] at h

/-- Witness for C8 at a concrete input. -/
theorem c8_witness :
    ([⟨"a", "S1", "c1", "production", [], 1, none, 0, none, "", [], "", false, ""⟩]
        : List ExtKey).Pairwise (fun x y => cmpKeys x y ≤ 0) ∧
    List.Perm
      [(⟨"a", "S1", "c1", "production", [], 1, none, 0, none, "", [], "", false, ""⟩
        : ExtKey)]
      (decryptAllKeys (fun c _ => some c) ((some "mp").getD "")
        [⟨"a", "S1", "c1", "production", [], 1, none, 0, none, "", [], "", false, ""⟩]) :=
  c8_default_list_sorted_by_code_comparator (fun c _ => some c) 9
    ⟨some "mp", true, ⟨true,
      [⟨"a", "S1", "c1", "production", [], 1, none, 0, none, "", [], "", false, ""⟩], 0⟩⟩
    [⟨"a", "S1", "c1", "production", [], 1, none, 0, none, "", [], "", false, ""⟩]
    ⟨some "mp", true, ⟨true,
      [⟨"a", "S1", "c1", "production", [], 1, none, 0, none, "", [], "", false, ""⟩], 9⟩⟩
    rfl

/-! ## Claim C9 -/

/-- C9: the claim that after 5 consecutive failed verifications every
subsequent unlock attempt incurs a backoff delay fails on the code: after
5 consecutive failures the sixth MCP unlock attempt is still processed
with zero delay (and is rejected exactly like the first). -/
theorem c9_counterexample :
    (unlockVault (fun s => "H(" ++ s ++ ")") "T"
        (runFailedUnlocks (fun s => "H(" ++ s ++ ")") "T" "bad" 5
          ⟨some ⟨"H(pw)", []⟩, none⟩) "bad").backoffMs = 0 ∧
    (unlockVault (fun s => "H(" ++ s ++ ")") "T"
        (runFailedUnlocks (fun s => "H(" ++ s ++ ")") "T" "bad" 5
          ⟨some ⟨"H(pw)", []⟩, none⟩) "bad").result =
      UnlockResult.invalidPassword := by
  exact ⟨rfl, rfl⟩

/-- C9 (amended): the MCP server counts no failures and inserts no
backoff — its state records only the vault and the session key, any
number of consecutive failed unlocks leaves the state unchanged, and
every unlock attempt afterwards responds with zero delay. -/
theorem c9_no_failure_counting_no_backoff
    (sha : String → String) (ts : String) (st : MCPState) (v : MCPVault)
    (wrong : String) (n : Nat) (hv : st.vault = some v)
    (hw : sha wrong ≠ v.passwordHash) :
    runFailedUnlocks sha ts wrong n st = st ∧
    ∀ pw, (unlockVault sha ts (runFailedUnlocks sha ts wrong n st) pw).backoffMs = 0 := by
  have hstep : (unlockVault sha ts st wrong).state = st := by
    unfold unlockVault
    rw [hv]
    simp [hw]
  have hzero : ∀ (s : MCPState) (pw : String),
      (unlockVault sha ts s pw).backoffMs = 0 := by
    intro s pw
    unfold unlockVault
    cases s.vault with
    | none => rfl
    | some w =>
      by_cases h : sha pw ≠ w.passwordHash <;> simp [h]
  have hrun : runFailedUnlocks sha ts wrong n st = st := by
    induction n with
    | zero => rfl
    | succ m ih =>
      show runFailedUnlocks sha ts wrong m (unlockVault sha ts st wrong).state = st
      rw [hstep]
      exact ih
  exact ⟨hrun, fun pw => by rw [hrun]; exact hzero st pw⟩

/-- Witness for C9 at a concrete input. -/
theorem c9_witness :
    runFailedUnlocks (fun s => "H(" ++ s ++ ")") "T" "bad" 7
      ⟨some ⟨"H(pw)", []⟩, none⟩ = ⟨some ⟨"H(pw)", []⟩, none⟩ ∧
    (unlockVault (fun s => "H(" ++ s ++ ")") "T"
      (runFailedUnlocks (fun s => "H(" ++ s ++ ")") "T" "bad" 7
        ⟨some ⟨"H(pw)", []⟩, none⟩) "bad").backoffMs = 0 := by
  have h := c9_no_failure_counting_no_backoff (fun s => "H(" ++ s ++ ")") "T"
    ⟨some ⟨"H(pw)", []⟩, none⟩ ⟨"H(pw)", []⟩ "bad" 7 rfl (by decide)
  exact ⟨h.1, h.2 "bad"⟩

end KV
